import Mathlib

/-!
Verification of the text-processing core of the Smart PDF Replacer
(pages/api/process.js and the in-place variant).

Strings are modelled as `List Char`; JS numbers as `ℚ` (all constants in
the program are exactly representable).  Each definition is a direct
shallow embedding of the corresponding JS function, with the JS regexes
unfolded into explicit character-class predicates and scanning loops
(greedy matching with backtracking, global non-overlapping replacement),
mirroring ECMAScript regex semantics for the concrete patterns used.
-/

namespace PdfEditor

/-! ### Character classes of the JS regexes -/

/-- Character class U+200B–U+200D, U+FEFF, U+00AD (zero-width chars and
soft hyphen) stripped by `normalizeWeird`. -/
def isZeroWidth (c : Char) : Bool :=
  (0x200B ≤ c.toNat && c.toNat ≤ 0x200D) || c.toNat = 0xFEFF || c.toNat = 0x00AD

/-- Character class `[⇄⇋•·–—_]` of separator glyphs unified to a hyphen
by `normalizeWeird`. -/
def isWeirdSep (c : Char) : Bool :=
  c = '⇄' || c = '⇋' || c = '•' || c = '·' || c = '–' || c = '—' || c = '_'

/-- Class `[A-Za-z]`. -/
def isAsciiLetter (c : Char) : Bool :=
  (0x41 ≤ c.toNat && c.toNat ≤ 0x5A) || (0x61 ≤ c.toNat && c.toNat ≤ 0x7A)

/-- Class `\d` (ASCII digits, as in JS regexes without the `u` flag semantics
changes — `\d` is always `[0-9]`). -/
def isAsciiDigit (c : Char) : Bool :=
  0x30 ≤ c.toNat && c.toNat ≤ 0x39

/-- The ECMAScript `\s` class (WhiteSpace ∪ LineTerminator): TAB LF VT FF CR,
space, NBSP, Ogham space, U+2000–U+200A, LS, PS, NNBSP, MMSP, ideographic
space, and BOM. -/
def isJsWs (c : Char) : Bool :=
  let n := c.toNat
  (9 ≤ n && n ≤ 13) || n = 32 || n = 0xA0 || n = 0x1680 ||
  (0x2000 ≤ n && n ≤ 0x200A) || n = 0x2028 || n = 0x2029 ||
  n = 0x202F || n = 0x205F || n = 0x3000 || n = 0xFEFF

/-- Class `[\d\s\-().]`, the interior class of the phone pattern. -/
def isPhoneClass (c : Char) : Bool :=
  isAsciiDigit c || isJsWs c || c = '-' || c = '(' || c = ')' || c = '.'

/-- ECMAScript `\w` = `[A-Za-z0-9_]`, used by the `\b` assertions of the
vanity regex. -/
def isWordChar (c : Char) : Bool :=
  isAsciiLetter c || isAsciiDigit c || c = '_'

/-! ### normalizeWeird (pages/api/process.js, lines 24–36)

Each `.replace` step becomes one list transformation.  JS global regex
replacement scans left to right and never re-enters a replaced region;
the recursions below reproduce that exactly. -/

/-- Step `.replace(/[​-‍﻿­]/g, "")`. -/
def stripInvisible (l : List Char) : List Char :=
  l.filter (fun c => !isZeroWidth c)

/-- Step `.replace(/[⇄⇋•·–—_]+/g, "-")`: each maximal run of separator glyphs
becomes a single hyphen. -/
def collapseSeps : List Char → List Char
  | [] => []
  | c :: rest =>
    if isWeirdSep c then '-' :: collapseSeps (rest.dropWhile isWeirdSep)
    else c :: collapseSeps rest
termination_by l => l.length
decreasing_by
  · have := (List.dropWhile_sublist (l := rest) isWeirdSep).length_le
    simp only [List.length_cons]
    omega
  · simp

/-- Step `.replace(/([A-Za-z])(\d)/g, "$1 $2")`: split each letter-digit
adjacency with a space.  After a (two-character) match the JS scan resumes
after the match, hence the `splitLD rest` in the first branch. -/
def splitLD : List Char → List Char
  | [] => []
  | [c] => [c]
  | a :: b :: rest =>
    if isAsciiLetter a && isAsciiDigit b then a :: ' ' :: b :: splitLD rest
    else a :: splitLD (b :: rest)

/-- Step `.replace(/(\d)([A-Za-z])/g, "$1 $2")`. -/
def splitDL : List Char → List Char
  | [] => []
  | [c] => [c]
  | a :: b :: rest =>
    if isAsciiDigit a && isAsciiLetter b then a :: ' ' :: b :: splitDL rest
    else a :: splitDL (b :: rest)

/-- Step `.replace(/\s{2,}/g, " ")`: each maximal run of at least two
whitespace characters becomes one space; an isolated whitespace character
is left alone. -/
def collapseWs : List Char → List Char
  | [] => []
  | [c] => [c]
  | a :: b :: rest =>
    if isJsWs a && isJsWs b then ' ' :: collapseWs (rest.dropWhile isJsWs)
    else a :: collapseWs (b :: rest)
termination_by l => l.length
decreasing_by
  · have := (List.dropWhile_sublist (l := rest) isJsWs).length_le
    simp only [List.length_cons]
    omega
  · simp

/-- Step `.trim()`: strip leading and trailing whitespace (the JS trim set
coincides with `\s`). -/
def jsTrim (l : List Char) : List Char :=
  ((l.dropWhile isJsWs).reverse.dropWhile isJsWs).reverse

/-- Function `normalizeWeird` from pages/api/process.js: strip invisibles, unify
odd separators, split letter/digit boundaries, collapse whitespace, trim. -/
def normalizeWeird (l : List Char) : List Char :=
  jsTrim (collapseWs (splitDL (splitLD (collapseSeps (stripInvisible l)))))

/-! ### The phone regex `/(\+?\d[\d\s\-().]{7,}\d)/g`

`PHONE_RE` in both files.  A match at a position is: an optional `+`,
a digit, then a greedy `[\d\s\-().]{7,}`, then a digit.  The greedy
quantifier backtracks: it consumes the maximal class run and then gives
back characters until the final `\d` matches, never below 7.  Since every
digit is itself a class character, this amounts to picking the LARGEST
index `k ≥ 7` inside the maximal class run whose character is a digit. -/

/-- Largest `j` with `start + position ≥ 7`, `run.get j` a digit; `go`
walks the run keeping the rightmost admissible index seen so far.
`bestK run` is the amount the `{7,}` quantifier finally consumes minus
one: the quantifier consumes `k + 1` characters and the closing `\d`
eats `run[k]`. -/
def bestKAux : List Char → Nat → Option Nat
  | [], _ => none
  | c :: rest, j =>
    match bestKAux rest (j + 1) with
    | some k => some k
    | none => if 7 ≤ j && isAsciiDigit c then some j else none

/-- The body after the leading digit: maximal class run, then the largest
digit position `k ≥ 7` in it.  Returns the total number of characters the
match consumes from this point (`k + 1`). -/
def phoneBody (t : List Char) : Option Nat :=
  match bestKAux (t.takeWhile isPhoneClass) 0 with
  | some k => some (k + 1)
  | none => none

/-- Match `\d[\d\s\-().]{7,}\d` at the head of `l`; returns the number of
characters consumed. -/
def phoneCore : List Char → Option Nat
  | [] => none
  | d :: t =>
    if isAsciiDigit d then
      match phoneBody t with
      | some n => some (n + 1)
      | none => none
    else none

/-- Match the whole pattern (optional leading `+`) at the head of `l`. -/
def phoneMatchAt : List Char → Option Nat
  | [] => none
  | c :: t =>
    if c = '+' then
      match phoneCore t with
      | some n => some (n + 1)
      | none => none
    else phoneCore (c :: t)

theorem bestKAux_ge {r : List Char} {j k : Nat} (h : bestKAux r j = some k) :
    j ≤ k ∧ 7 ≤ k := by
  induction r generalizing j with
  | nil => simp [bestKAux] at h
  | cons c rest ih =>
    simp only [bestKAux] at h
    cases hrec : bestKAux rest (j + 1) with
    | some k2 =>
      rw [hrec] at h
      simp only [Option.some.injEq] at h
      subst h
      obtain ⟨h1, h2⟩ := ih hrec
      omega
    | none =>
      rw [hrec] at h
      by_cases hc : (7 ≤ j && isAsciiDigit c) = true
      · rw [if_pos hc] at h
        simp only [Option.some.injEq] at h
        simp only [Bool.and_eq_true, decide_eq_true_eq] at hc
        omega
      · rw [if_neg hc] at h
        simp at h

theorem phoneBody_pos {t : List Char} {n : Nat} (h : phoneBody t = some n) : 8 ≤ n := by
  unfold phoneBody at h
  cases hb : bestKAux (t.takeWhile isPhoneClass) 0 with
  | some k =>
    rw [hb] at h
    have := bestKAux_ge hb
    simp only [Option.some.injEq] at h
    omega
  | none => rw [hb] at h; simp at h

theorem phoneMatchAt_pos {l : List Char} {n : Nat} (h : phoneMatchAt l = some n) :
    9 ≤ n := by
  have core : ∀ (t : List Char) (m : Nat), phoneCore t = some m → 9 ≤ m := by
    intro t m hm
    match t with
    | [] => simp [phoneCore] at hm
    | d :: t2 =>
      simp only [phoneCore] at hm
      split at hm
      · cases hb : phoneBody t2 with
        | some nb =>
          rw [hb] at hm
          simp at hm
          have := phoneBody_pos hb
          omega
        | none => rw [hb] at hm; exact absurd hm (by simp)
      · exact absurd hm (by simp)
  match l with
  | [] => simp [phoneMatchAt] at h
  | c :: t =>
    simp only [phoneMatchAt] at h
    split at h
    · cases hc : phoneCore t with
      | some m =>
        rw [hc] at h
        simp at h
        have := core t m hc
        omega
      | none => rw [hc] at h; exact absurd h (by simp)
    · have := core (c :: t) n h
      omega

/-- The `while ((m = PHONE_RE.exec(raw)) !== null)` loop: global-flag
`exec` looks for the leftmost match starting at or after `lastIndex`
(initially 0) and then sets `lastIndex` to the match end.  Returns
`(start, end, matchedText)` triples.  The loop advances `pos` by at least
one character per iteration and stops once `pos` passes the end, so a
structural fuel of `s.length - pos + 1` steps never runs out; the fuel
only makes the recursion structural (kernel-reducible). -/
def phoneScanAux (s : List Char) : Nat → Nat → List (Nat × Nat × List Char)
  | 0, _ => []
  | fuel + 1, pos =>
    if s.length ≤ pos then []
    else
      match phoneMatchAt (s.drop pos) with
      | some len => (pos, pos + len, (s.drop pos).take len) :: phoneScanAux s fuel (pos + len)
      | none => phoneScanAux s fuel (pos + 1)

/-- Operation `PhoneMatcher.findMatches`: all matches of the phone pattern, scanned
from the start. -/
def findMatches (s : List Char) : List (Nat × Nat × List Char) :=
  phoneScanAux s (s.length + 1) 0

/-- Step `text.replace(phoneRegex, newNumber)`: copy unmatched characters,
substitute each (leftmost, non-overlapping) match with `repl`; same fuel
discipline as `phoneScanAux`. -/
def phoneReplaceAux (s repl : List Char) : Nat → Nat → List Char
  | 0, _ => []
  | fuel + 1, pos =>
    if s.length ≤ pos then []
    else
      match phoneMatchAt (s.drop pos) with
      | some len => repl ++ phoneReplaceAux s repl fuel (pos + len)
      | none => s.getD pos ' ' :: phoneReplaceAux s repl fuel (pos + 1)

/-- Operation `PhoneMatcher.replaceAll`. -/
def replaceAll (s repl : List Char) : List Char :=
  phoneReplaceAux s repl (s.length + 1) 0

/-! ### Line assembly (inplaceReplace, src/unnamed/part_002 lines 63–102)

A fragment is one positioned text item from the page's text layer.
Coordinates are modelled as rationals (every constant in the program —
`LINE_Y_TOL = 2.0`, `WORD_GAP_TOL = 2.0`, `PAD = 1.5` — is exactly
representable). -/

structure Frag where
  str : List Char
  x : ℚ
  y : ℚ
  width : ℚ
  height : ℚ
deriving DecidableEq

/-- A span `{start, end, itemIndex}`; the code uses `itemIndex = -1` as the
sentinel for a synthesized inter-word space. -/
structure Span where
  start : Nat
  stop : Nat
  itemIndex : Int
deriving DecidableEq

def LINE_Y_TOL : ℚ := 2
def WORD_GAP_TOL : ℚ := 2
def PAD : ℚ := 3 / 2
def DRAW_SIZE : ℚ := 10

/-- One accumulating line: the clustering anchor and its items in
insertion order. -/
structure LineAcc where
  yRef : ℚ
  items : List Frag
deriving DecidableEq

/-- Step `lines.find(L => Math.abs(L.yRef - y) <= LINE_Y_TOL)` + push:
first-fit insertion of one fragment into the line list. -/
def insertFrag : List LineAcc → Frag → List LineAcc
  | [], f => [⟨f.y, [f]⟩]
  | L :: rest, f =>
    if |L.yRef - f.y| ≤ LINE_Y_TOL then ⟨L.yRef, L.items ++ [f]⟩ :: rest
    else L :: insertFrag rest f

/-- The fragment-to-line clustering loop. -/
def groupFrags (frags : List Frag) : List LineAcc :=
  frags.foldl insertFrag []

/-- Stable insertion: place `x` before the first `y` it may precede
(`le x y`), after every strictly earlier one.  Processing the original
list front to back with this insertion is a stable sort. -/
def insertBy {α : Type} (le : α → α → Bool) (x : α) : List α → List α
  | [] => [x]
  | y :: ys => if le x y then x :: y :: ys else y :: insertBy le x ys

/-- Stable sort by a boolean total preorder.  JS `Array.sort` (ES2019+)
is stable and, for a consistent comparator, any two stable sorts agree,
so this structurally recursive insertion sort models it exactly. -/
def stableSortBy {α : Type} (le : α → α → Bool) : List α → List α
  | [] => []
  | x :: xs => insertBy le x (stableSortBy le xs)

/-- Steps `lines.sort((L1,L2) => L2.yRef - L1.yRef)` (top of page first) and
`L.items.sort((a,b) => a.x - b.x)` (left to right). -/
def sortLines (lines : List LineAcc) : List LineAcc :=
  (stableSortBy (fun L1 L2 => decide (L2.yRef ≤ L1.yRef)) lines).map
    (fun L => ⟨L.yRef, stableSortBy (fun a b => decide (a.x ≤ b.x)) L.items⟩)

/-- The span-building loop body for the remaining items: `prev` is
`items[idx-1]`, `idx` the index of the next item, `text`/`spans` the
accumulators. -/
def buildRest (prev : Frag) (idx : Nat) (text : List Char) (spans : List Span) :
    List Frag → List Char × List Span
  | [] => (text, spans)
  | it :: rest =>
    let gap := it.x - (prev.x + prev.width)
    let text1 := if gap > WORD_GAP_TOL then text ++ [' '] else text
    let spans1 :=
      if gap > WORD_GAP_TOL then
        spans ++ [⟨text.length, text.length + 1, -1⟩]
      else spans
    let text2 := text1 ++ it.str
    let spans2 := spans1 ++ [⟨text1.length, text2.length, (idx : Int)⟩]
    buildRest it (idx + 1) text2 spans2 rest

/-- The `for (let idx = 0; ...)` span-building loop over one line's sorted
items: produces `L.text` and `L.spans`. -/
def buildLine : List Frag → List Char × List Span
  | [] => ([], [])
  | it :: rest => buildRest it 1 it.str [⟨0, it.str.length, 0⟩] rest

/-- A fully assembled line. -/
structure Line where
  yRef : ℚ
  items : List Frag
  text : List Char
  spans : List Span
deriving DecidableEq

/-- The whole line-assembly step of `inplaceReplace`: cluster, sort,
build text and spans. -/
def assemble (frags : List Frag) : List Line :=
  (sortLines (groupFrags frags)).map (fun L =>
    let ts := buildLine L.items
    ⟨L.yRef, L.items, ts.1, ts.2⟩)

/-! ### Geometry mapping (inplaceReplace, lines 104–148) -/

structure Size where
  width : ℚ
  height : ℚ
deriving DecidableEq

/-- Source-space bounding box of a match. -/
structure SrcBox where
  minX : ℚ
  maxX : ℚ
  topY : ℚ
  bottomY : ℚ
deriving DecidableEq

/-- Destination-space rectangle. -/
structure DestBox where
  x : ℚ
  y : ℚ
  width : ℚ
  height : ℚ
deriving DecidableEq

/-- Lines 136–139: union bounding box of the used items, padded by `PAD`.
`usedItems` must be nonempty (the code `continue`s otherwise); the head
seeds the fold exactly as `Math.min/Math.max` over a nonempty list. -/
def srcBoxOf (u : Frag) (us : List Frag) : SrcBox :=
  { minX := (us.foldl (fun m f => min m f.x) u.x) - PAD
    maxX := (us.foldl (fun m f => max m (f.x + f.width)) (u.x + u.width)) + PAD
    topY := (us.foldl (fun m f => max m f.y) u.y) + PAD
    bottomY := (us.foldl (fun m f => min m (f.y - f.height)) (u.y - u.height)) - PAD }

/-- Lines 107–108 and 141–148: scale each axis independently, then flip
the y axis (destination origin is bottom-left). -/
def convertBox (box : SrcBox) (viewport dest : Size) : DestBox :=
  let scaleX := dest.width / viewport.width
  let scaleY := dest.height / viewport.height
  let pdfX := box.minX * scaleX
  let pdfWidth := (box.maxX - box.minX) * scaleX
  let pdfTopFromBottom := dest.height - box.topY * scaleY
  let pdfHeight := (box.topY - box.bottomY) * scaleY
  { x := pdfX, y := pdfTopFromBottom - pdfHeight, width := pdfWidth, height := pdfHeight }

/-! ### The in-place overlay pass (lines 110–168)

The rendering side effects are modelled as an explicit list of draw
operations per page. -/

inductive DrawOp where
  | rect (x y width height : ℚ)
  | text (x y : ℚ) (s : List Char) (size : ℚ) (maxWidth : ℚ)
deriving DecidableEq

/-- The items whose spans overlap `[mStart, mEnd)` (spaces the assembler
inserted carry `itemIndex = -1` and contribute nothing). -/
def usedItemsFor (L : Line) (mStart mEnd : Nat) : List Frag :=
  (L.spans.filter (fun s =>
    decide (0 ≤ s.itemIndex) && decide (s.start < mEnd) && decide (mStart < s.stop))).filterMap
    (fun s => L.items.get? s.itemIndex.toNat)

/-- Draw operations emitted for one match on one line. -/
def opsForMatch (L : Line) (viewport dest : Size) (newNumber : List Char)
    (m : Nat × Nat × List Char) : List DrawOp :=
  match usedItemsFor L m.1 m.2.1 with
  | [] => []
  | u :: us =>
    let box := srcBoxOf u us
    let d := convertBox box viewport dest
    [DrawOp.rect d.x d.y d.width d.height,
     DrawOp.text (d.x + 1 / 2) (d.y + 1 / 2) newNumber DRAW_SIZE (d.width - 1)]

/-- All draw operations for one assembled line: one rect + one text per
regex match with a nonempty used-item set. -/
def opsForLine (L : Line) (viewport dest : Size) (newNumber : List Char) : List DrawOp :=
  (findMatches L.text).flatMap (opsForMatch L viewport dest newNumber)

/-- One page's input to the in-place pass: its text-layer fragments and
viewport, plus the matching output page's size. -/
structure PageInput where
  frags : List Frag
  viewport : Size
  dest : Size
deriving DecidableEq

/-- Draw operations performed on one output page by `inplaceReplace`. -/
def opsForPage (p : PageInput) (newNumber : List Char) : List DrawOp :=
  (assemble p.frags).flatMap (fun L => opsForLine L p.viewport p.dest newNumber)

/-- Model of `inplaceReplace` output: the copied pages (unchanged) plus the
overlay operations drawn onto each.  The function always returns a
document; a page with no matches simply gets an empty operation list. -/
def inplaceReplace (pages : List PageInput) (newNumber : List Char) :
    List (PageInput × List DrawOp) :=
  pages.map (fun p => (p, opsForPage p newNumber))

/-! ### Paginator (pages/api/process.js, lines 84–124)

The wrap step depends on the external font-metric collaborator
(`font.widthOfTextAtSize`); the pagination step (lines 119–123) is the
pure grouping of the wrapped lines, modelled here over an arbitrary
wrapped-line list. -/

/-- Value `Math.floor((pageH - margin*2) / lineH)`. -/
def maxLinesOf (pageH margin lineH : ℚ) : Int :=
  ⌊(pageH - margin * 2) / lineH⌋

/-- Loop `for (let i = 0; i < lines.length; i += maxLines) pages.push(lines.slice(i, i+maxLines))`.
The loop diverges for `maxLines = 0`; the model is only meaningful for
`0 < k` (every theorem below assumes it).  Each iteration drops at least
one line, so a fuel of `l.length + 1` never runs out. -/
def paginateAux : Nat → List (List Char) → Nat → List (List (List Char))
  | 0, _, _ => []
  | fuel + 1, l, k =>
    if l = [] ∨ k = 0 then []
    else l.take k :: paginateAux fuel (l.drop k) k

def paginateLines (l : List (List Char)) (k : Nat) : List (List (List Char)) :=
  paginateAux (l.length + 1) l k

/-! ### Vanity decoding (pages/api/process.js, lines 38–52)

Regex `/\b(1[\s-]?8(?:00|33|44|55|66|77|88)[\s-]?)([A-Za-z][A-Za-z-]{3,})\b/gi`
with a replacer mapping the word's letters through the keypad table.
The `i` flag is inert: every literal in the pattern is caseless and the
classes already cover both cases. -/

/-- Table `VANITY_MAP` (uppercase keys). -/
def VANITY_MAP (c : Char) : Option Char :=
  if c = 'A' ∨ c = 'B' ∨ c = 'C' then some '2'
  else if c = 'D' ∨ c = 'E' ∨ c = 'F' then some '3'
  else if c = 'G' ∨ c = 'H' ∨ c = 'I' then some '4'
  else if c = 'J' ∨ c = 'K' ∨ c = 'L' then some '5'
  else if c = 'M' ∨ c = 'N' ∨ c = 'O' then some '6'
  else if c = 'P' ∨ c = 'Q' ∨ c = 'R' ∨ c = 'S' then some '7'
  else if c = 'T' ∨ c = 'U' ∨ c = 'V' then some '8'
  else if c = 'W' ∨ c = 'X' ∨ c = 'Y' ∨ c = 'Z' then some '9'
  else none

/-- Function `String.prototype.toUpperCase` restricted to ASCII letters (the only
characters the replacer feeds it). -/
def asciiUpper (c : Char) : Char :=
  if 0x61 ≤ c.toNat ∧ c.toNat ≤ 0x7A then Char.ofNat (c.toNat - 32) else c

/-- The replacer body:
`word.replace(/[^A-Za-z]/g,"").toUpperCase().split("").map(ch => VANITY_MAP[ch] || "").join("")`. -/
def vanityDigits (word : List Char) : List Char :=
  ((word.filter isAsciiLetter).map asciiUpper).filterMap VANITY_MAP

/-- Class `[\s-]`. -/
def isSpDash (c : Char) : Bool := isJsWs c || c = '-'

/-- Alternation `(?:00|33|44|55|66|77|88)`: at most one two-character alternative can
apply, so the alternation is deterministic. -/
def validXX (x y : Char) : Bool :=
  (x = '0' && y = '0') || (x = '3' && y = '3') || (x = '4' && y = '4') ||
  (x = '5' && y = '5') || (x = '6' && y = '6') || (x = '7' && y = '7') ||
  (x = '8' && y = '8')

/-- Assertion `\b` between a previous character (if any) and a next character (if
any): exactly one side is a word character. -/
def boundary (prev next : Option Char) : Bool :=
  (match prev with | none => false | some c => isWordChar c) ≠
  (match next with | none => false | some c => isWordChar c)

/-- Group `[A-Za-z][A-Za-z-]{3,}\b`: greedy run with backtracking driven by the
trailing word boundary — the largest `k ≥ 3` such that a boundary holds
after `first :: run.take k`.  Returns the word's length (`k + 1`). -/
def matchVanityWord : List Char → Option Nat
  | [] => none
  | c :: rest =>
    if isAsciiLetter c then
      let run := rest.takeWhile (fun d => isAsciiLetter d || d = '-')
      match bestWordK run rest with
      | some k => some (k + 1)
      | none => none
    else none
where
  /-- Largest `3 ≤ k ≤ run.length` with a word boundary after position
  `k` of `rest` (the previous character is then `run[k-1]`). -/
  bestWordK (run rest : List Char) : Option Nat :=
    (List.range (run.length + 1)).foldl
      (fun acc k =>
        if 3 ≤ k && boundary (run.get? (k - 1)) (rest.get? k) then some k else acc)
      none

/-- After `8` and its two digits: optional `[\s-]`, then the word.
Returns `(extra prefix chars consumed after the two digits, word length)`.
If the optional separator branch fails, JS backtracks and retries without
it. -/
def matchAfterXX (t : List Char) : Option (Nat × Nat) :=
  match t with
  | c :: rest =>
    if isSpDash c then
      match matchVanityWord rest with
      | some w => some (1, w)
      | none =>
        match matchVanityWord t with
        | some w => some (0, w)
        | none => none
    else
      match matchVanityWord t with
      | some w => some (0, w)
      | none => none
  | [] => none

/-- Group 1 after the leading `1`: `[\s-]?8(?:00|33|44|55|66|77|88)[\s-]?`
followed by group 2.  Returns `(prefixLen, wordLen)` with `prefixLen`
counting the leading `1` as well.  The optional separator branch is
deterministic: `8` is not a separator character, so at most one of the
with-separator / without-separator alternatives of `[\s-]?` can apply. -/
def matchVanityTail : List Char → Option (Nat × Nat)
  | [] => none
  | c :: rest =>
    if c = '8' then
      match rest with
      | x :: y :: rest2 =>
        if validXX x y then
          match matchAfterXX rest2 with
          | some (p, w) => some (1 + 3 + p, w)
          | none => none
        else none
      | _ => none
    else if isSpDash c then
      match rest with
      | d :: x :: y :: rest2 =>
        if d = '8' ∧ validXX x y then
          match matchAfterXX rest2 with
          | some (p, w) => some (1 + 4 + p, w)
          | none => none
        else none
      | _ => none
    else none

/-- Try the vanity pattern at the head of `l` (which must start with `1`;
the leading `\b` is checked by the caller). -/
def matchVanityAt : List Char → Option (Nat × Nat)
  | [] => none
  | c :: t => if c = '1' then matchVanityTail t else none

set_option maxHeartbeats 1600000 in
theorem matchVanityTail_cases {t : List Char} {p w : Nat}
    (h : matchVanityTail t = some (p, w)) :
    (∃ x y rest2 p2, t = '8' :: x :: y :: rest2 ∧ validXX x y = true ∧
      matchAfterXX rest2 = some (p2, w) ∧ p = 4 + p2) ∨
    (∃ c x y rest2 p2, t = c :: '8' :: x :: y :: rest2 ∧ isSpDash c = true ∧
      validXX x y = true ∧ matchAfterXX rest2 = some (p2, w) ∧ p = 5 + p2) := by
  match t with
  | [] => simp [matchVanityTail] at h
  | c :: rest =>
    simp only [matchVanityTail] at h
    by_cases hc : c = '8'
    · rw [if_pos hc] at h
      match rest with
      | [] => simp at h
      | [x] => simp at h
      | x :: y :: rest2 =>
        simp only [] at h
        by_cases hxx : validXX x y = true
        · rw [if_pos hxx] at h
          cases ha : matchAfterXX rest2 with
          | some pw =>
            obtain ⟨p2, w2⟩ := pw
            rw [ha] at h
            simp only [Option.some.injEq, Prod.mk.injEq] at h
            obtain ⟨hp, hww⟩ := h
            subst hc
            exact Or.inl ⟨x, y, rest2, p2, rfl, hxx, by rw [ha, hww], by omega⟩
          | none => rw [ha] at h; simp at h
        · rw [if_neg hxx] at h; simp at h
    · rw [if_neg hc] at h
      by_cases hsep : isSpDash c = true
      · rw [if_pos hsep] at h
        match rest with
        | [] => simp at h
        | [d] => simp at h
        | [d, x] => simp at h
        | d :: x :: y :: rest2 =>
          simp only [] at h
          by_cases hdx : d = '8' ∧ validXX x y = true
          · rw [if_pos hdx] at h
            cases ha : matchAfterXX rest2 with
            | some pw =>
              obtain ⟨p2, w2⟩ := pw
              rw [ha] at h
              simp only [Option.some.injEq, Prod.mk.injEq] at h
              obtain ⟨hp, hww⟩ := h
              obtain ⟨hd8, hxx⟩ := hdx
              subst hd8
              exact Or.inr ⟨c, x, y, rest2, p2, rfl, hsep, hxx, by rw [ha, hww], by omega⟩
            | none => rw [ha] at h; simp at h
          · rw [if_neg hdx] at h; simp at h
      · rw [if_neg hsep] at h; simp at h

theorem matchVanityAt_pos {l : List Char} {p w : Nat}
    (h : matchVanityAt l = some (p, w)) : 4 ≤ p := by
  match l with
  | [] => simp [matchVanityAt] at h
  | c :: t =>
    simp only [matchVanityAt] at h
    by_cases hc : c = '1'
    · rw [if_pos hc] at h
      rcases matchVanityTail_cases h with
        ⟨x, y, rest2, p2, ht, hxx, ha, hp⟩ | ⟨d, x, y, rest2, p2, ht, hsep, hxx, ha, hp⟩ <;>
        omega
    · rw [if_neg hc] at h
      simp at h

/-- The global scan of `convertVanityToDigits`: at each position, if a
word boundary precedes a `1` that starts a match, emit the unchanged
numeric prefix followed by the decoded digits (or the original word if
no letter mapped — impossible here, but the branch is kept) and resume
after the match; otherwise copy one character. -/
def vanityScanAux (s : List Char) : Nat → Nat → List Char
  | 0, _ => []
  | fuel + 1, pos =>
    if s.length ≤ pos then []
    else if pos = 0 ∨ ¬isWordChar (s.getD (pos - 1) ' ') then
      match matchVanityAt (s.drop pos) with
      | some (p, w) =>
        ((s.drop pos).take p ++
          (if vanityDigits (((s.drop pos).drop p).take w) ≠ [] then
            vanityDigits (((s.drop pos).drop p).take w)
          else ((s.drop pos).drop p).take w)) ++
          vanityScanAux s fuel (pos + p + w)
      | none => s.getD pos ' ' :: vanityScanAux s fuel (pos + 1)
    else s.getD pos ' ' :: vanityScanAux s fuel (pos + 1)

/-- Function `convertVanityToDigits` from pages/api/process.js.  The scan advances
by at least one character per step (a match consumes `p + w ≥ 5`), so the
structural fuel `s.length + 1` never runs out. -/
def convertVanityToDigits (s : List Char) : List Char :=
  vanityScanAux s (s.length + 1) 0

/-! ### Top-level handler (src/unnamed/part_002 lines 216–241)

Transport effects are modelled as an explicit trace; the guard on the
request body happens before any of them. -/

/-- The request body (absent body models `req.body` undefined; the code
falls back to `{}`).  JS string truthiness: `undefined`, `null` and `""`
are falsy. -/
structure ReqBody where
  pdfUrl : Option (List Char)
  newNumber : Option (List Char)
  mode : Option (List Char)
deriving DecidableEq

def truthy : Option (List Char) → Bool
  | none => false
  | some s => !s.isEmpty

inductive Effect where
  | fetchPdf (url : List Char)
  | process (mode : List Char)
deriving DecidableEq

inductive Response where
  | status (code : Nat) (errorMsg : Option (List Char))
deriving DecidableEq

/-- Step `req.body || {}` followed by destructuring. -/
def reqOf (body : Option ReqBody) : ReqBody :=
  body.getD ⟨none, none, none⟩

/-- The handler up to its first effect: the body guard.  When the guard
fails it responds 400 with the fixed message and performs no effect;
otherwise it fetches the PDF and dispatches on `mode` (default
`"inplace"`). -/
def handlerModel (body : Option ReqBody) : Response × List Effect :=
  if !truthy (reqOf body).pdfUrl || !truthy (reqOf body).newNumber then
    (Response.status 400 (some "Missing pdfUrl or newNumber".toList), [])
  else
    (Response.status 200 none,
     [Effect.fetchPdf ((reqOf body).pdfUrl.getD []),
      Effect.process ((reqOf body).mode.getD "inplace".toList)])

/-! ### Idempotence infrastructure for `normalizeWeird`

Each stage of the normalizer establishes an invariant on its output and
is the identity on inputs already satisfying all previously established
invariants. -/

/-- No zero-width characters. -/
def NoZW (l : List Char) : Prop := ∀ c ∈ l, isZeroWidth c = false

/-- No separator glyphs. -/
def NoWeird (l : List Char) : Prop := ∀ c ∈ l, isWeirdSep c = false

/-- No letter immediately followed by a digit. -/
def NoLD (l : List Char) : Prop :=
  List.Chain' (fun a b => ¬(isAsciiLetter a = true ∧ isAsciiDigit b = true)) l

/-- No digit immediately followed by a letter. -/
def NoDL (l : List Char) : Prop :=
  List.Chain' (fun a b => ¬(isAsciiDigit a = true ∧ isAsciiLetter b = true)) l

/-- No two adjacent whitespace characters. -/
def NoWW (l : List Char) : Prop :=
  List.Chain' (fun a b => ¬(isJsWs a = true ∧ isJsWs b = true)) l

/-- Neither end is whitespace. -/
def Trimmed (l : List Char) : Prop :=
  (∀ c, l.head? = some c → isJsWs c = false) ∧
  (∀ c, l.getLast? = some c → isJsWs c = false)

theorem not_letter_and_digit (c : Char) :
    ¬(isAsciiLetter c = true ∧ isAsciiDigit c = true) := by
  rintro ⟨hl, hd⟩
  simp only [isAsciiLetter, Bool.or_eq_true, Bool.and_eq_true, decide_eq_true_eq] at hl
  simp only [isAsciiDigit, Bool.and_eq_true, decide_eq_true_eq] at hd
  omega

theorem space_facts :
    isZeroWidth ' ' = false ∧ isWeirdSep ' ' = false ∧
    isAsciiLetter ' ' = false ∧ isAsciiDigit ' ' = false ∧ isJsWs ' ' = true := by
  decide

theorem hyphen_facts :
    isZeroWidth '-' = false ∧ isWeirdSep '-' = false ∧
    isAsciiLetter '-' = false ∧ isAsciiDigit '-' = false ∧ isJsWs '-' = false := by
  decide

/-- A `Chain'` survives dropping a front segment. -/
theorem chain_drop {R : Char → Char → Prop} :
    ∀ (n : Nat) (l : List Char), List.Chain' R l → List.Chain' R (l.drop n)
  | 0, l, h => h
  | n + 1, [], _ => by simp
  | n + 1, _ :: t, h => chain_drop n t h.tail

/-- Since `dropWhile` keeps a contiguous tail, it preserves `Chain'`. -/
theorem chain_dropWhile {R : Char → Char → Prop} (p : Char → Bool) :
    ∀ (l : List Char), List.Chain' R l → List.Chain' R (l.dropWhile p)
  | [], _ => by simp
  | c :: t, h => by
    rw [List.dropWhile_cons]
    split
    · exact chain_dropWhile p t h.tail
    · exact h

theorem dropWhile_head_false {p : Char → Bool} :
    ∀ (l : List Char) {d t}, l.dropWhile p = d :: t → p d = false := by
  intro l
  induction l with
  | nil => intro d t h; simp at h
  | cons c rest ih =>
    intro d t h
    rw [List.dropWhile_cons] at h
    split at h
    · exact ih h
    · rename_i hc
      injection h with h1 _
      subst h1
      simpa using hc

theorem mem_dropWhile {p : Char → Bool} {c : Char} {l : List Char}
    (h : c ∈ l.dropWhile p) : c ∈ l :=
  (List.dropWhile_sublist p).mem h

/-! Identity lemmas: each stage fixes any input already in its range. -/

theorem stripInvisible_eq_self {l : List Char} (h : NoZW l) : stripInvisible l = l := by
  unfold stripInvisible
  rw [List.filter_eq_self]
  intro c hc
  simp [h c hc]

theorem collapseSeps_eq_self {l : List Char} (h : NoWeird l) : collapseSeps l = l := by
  induction l with
  | nil => rw [collapseSeps]
  | cons c rest ih =>
    rw [collapseSeps]
    rw [if_neg (by simp [h c (List.mem_cons_self c rest)])]
    rw [ih (fun d hd => h d (List.mem_cons_of_mem c hd))]

theorem splitLD_eq_self {l : List Char} (h : NoLD l) : splitLD l = l := by
  induction l using splitLD.induct with
  | case1 => rfl
  | case2 c => rfl
  | case3 a b rest hcond ih =>
    have hne : ¬(isAsciiLetter a = true ∧ isAsciiDigit b = true) := (List.chain'_cons.mp h).1
    rw [Bool.and_eq_true] at hcond
    exact absurd hcond hne
  | case4 a b rest hcond ih =>
    rw [splitLD, if_neg hcond, ih (List.chain'_cons.mp h).2]

theorem splitDL_eq_self {l : List Char} (h : NoDL l) : splitDL l = l := by
  induction l using splitDL.induct with
  | case1 => rfl
  | case2 c => rfl
  | case3 a b rest hcond ih =>
    have hne : ¬(isAsciiDigit a = true ∧ isAsciiLetter b = true) := (List.chain'_cons.mp h).1
    rw [Bool.and_eq_true] at hcond
    exact absurd hcond hne
  | case4 a b rest hcond ih =>
    rw [splitDL, if_neg hcond, ih (List.chain'_cons.mp h).2]

set_option maxHeartbeats 1600000 in
theorem collapseWs_eq_self {l : List Char} (h : NoWW l) : collapseWs l = l := by
  induction l using collapseWs.induct with
  | case1 => rw [collapseWs]
  | case2 c => rw [collapseWs]
  | case3 a b rest hcond ih =>
    have hne : ¬(isJsWs a = true ∧ isJsWs b = true) := (List.chain'_cons.mp h).1
    rw [Bool.and_eq_true] at hcond
    exact absurd hcond hne
  | case4 a b rest hcond ih =>
    rw [collapseWs, if_neg hcond, ih (List.chain'_cons.mp h).2]

theorem jsTrim_eq_self {l : List Char} (h : Trimmed l) : jsTrim l = l := by
  obtain ⟨hh, hl⟩ := h
  unfold jsTrim
  have h1 : l.dropWhile isJsWs = l := by
    cases l with
    | nil => rfl
    | cons c t =>
      rw [List.dropWhile_cons, if_neg (by simp [hh c rfl])]
  rw [h1]
  have h2 : l.reverse.dropWhile isJsWs = l.reverse := by
    cases hr : l.reverse with
    | nil => rfl
    | cons c t =>
      rw [List.dropWhile_cons, if_neg ?_]
      have : l.getLast? = some c := by
        rw [← List.head?_reverse, hr]
        rfl
      simp [hl c this]
  rw [h2, List.reverse_reverse]

/-! Establishment lemmas: what each stage guarantees about its output,
and membership bounds used to carry earlier invariants across later
stages. -/

theorem stripInvisible_noZW (l : List Char) : NoZW (stripInvisible l) := by
  intro c hc
  unfold stripInvisible at hc
  have := List.of_mem_filter hc
  simpa using this

theorem mem_stripInvisible {c : Char} {l : List Char} (h : c ∈ stripInvisible l) :
    c ∈ l :=
  List.mem_of_mem_filter h

theorem mem_collapseSeps {c : Char} :
    ∀ {l : List Char}, c ∈ collapseSeps l → c ∈ l ∨ c = '-' := by
  intro l
  induction l using collapseSeps.induct with
  | case1 => intro h; rw [collapseSeps] at h; simp at h
  | case2 d rest hcond ih =>
    intro h
    rw [collapseSeps, if_pos hcond] at h
    rcases List.mem_cons.mp h with h | h
    · right; exact h
    · rcases ih h with h | h
      · left; exact List.mem_cons_of_mem d (mem_dropWhile h)
      · right; exact h
  | case3 d rest hcond ih =>
    intro h
    rw [collapseSeps, if_neg hcond] at h
    rcases List.mem_cons.mp h with h | h
    · left; exact h ▸ List.mem_cons_self d rest
    · rcases ih h with h | h
      · left; exact List.mem_cons_of_mem d h
      · right; exact h

theorem collapseSeps_noWeird (l : List Char) : NoWeird (collapseSeps l) := by
  induction l using collapseSeps.induct with
  | case1 => intro c hc; rw [collapseSeps] at hc; simp at hc
  | case2 d rest hcond ih =>
    intro c hc
    rw [collapseSeps, if_pos hcond] at hc
    rcases List.mem_cons.mp hc with h | h
    · subst h; exact hyphen_facts.2.1
    · exact ih c h
  | case3 d rest hcond ih =>
    intro c hc
    rw [collapseSeps, if_neg hcond] at hc
    rcases List.mem_cons.mp hc with h | h
    · subst h; simpa using hcond
    · exact ih c h

theorem mem_splitLD {c : Char} :
    ∀ {l : List Char}, c ∈ splitLD l → c ∈ l ∨ c = ' ' := by
  intro l
  induction l using splitLD.induct with
  | case1 => intro h; simp [splitLD] at h
  | case2 d => intro h; left; simpa [splitLD] using h
  | case3 a b rest hcond ih =>
    intro h
    rw [splitLD, if_pos hcond] at h
    simp only [List.mem_cons] at h ⊢
    rcases h with h | h | h | h
    · left; exact Or.inl h
    · right; exact h
    · left; exact Or.inr (Or.inl h)
    · rcases ih h with h | h
      · left; exact Or.inr (Or.inr h)
      · right; exact h
  | case4 a b rest hcond ih =>
    intro h
    rw [splitLD, if_neg hcond] at h
    simp only [List.mem_cons] at h ⊢
    rcases h with h | h
    · left; exact Or.inl h
    · rcases ih h with h | h
      · left; exact Or.inr (List.mem_cons.mp h)
      · right; exact h

theorem mem_splitDL {c : Char} :
    ∀ {l : List Char}, c ∈ splitDL l → c ∈ l ∨ c = ' ' := by
  intro l
  induction l using splitDL.induct with
  | case1 => intro h; simp [splitDL] at h
  | case2 d => intro h; left; simpa [splitDL] using h
  | case3 a b rest hcond ih =>
    intro h
    rw [splitDL, if_pos hcond] at h
    simp only [List.mem_cons] at h ⊢
    rcases h with h | h | h | h
    · left; exact Or.inl h
    · right; exact h
    · left; exact Or.inr (Or.inl h)
    · rcases ih h with h | h
      · left; exact Or.inr (Or.inr h)
      · right; exact h
  | case4 a b rest hcond ih =>
    intro h
    rw [splitDL, if_neg hcond] at h
    simp only [List.mem_cons] at h ⊢
    rcases h with h | h
    · left; exact Or.inl h
    · rcases ih h with h | h
      · left; exact Or.inr (List.mem_cons.mp h)
      · right; exact h

theorem mem_collapseWs {c : Char} :
    ∀ {l : List Char}, c ∈ collapseWs l → c ∈ l ∨ c = ' ' := by
  intro l
  induction l using collapseWs.induct with
  | case1 => intro h; rw [collapseWs] at h; simp at h
  | case2 d => intro h; rw [collapseWs] at h; left; simpa using h
  | case3 a b rest hcond ih =>
    intro h
    rw [collapseWs, if_pos hcond] at h
    simp only [List.mem_cons] at h ⊢
    rcases h with h | h
    · right; exact h
    · rcases ih h with h | h
      · left; exact Or.inr (Or.inr (mem_dropWhile h))
      · right; exact h
  | case4 a b rest hcond ih =>
    intro h
    rw [collapseWs, if_neg hcond] at h
    simp only [List.mem_cons] at h ⊢
    rcases h with h | h
    · left; exact Or.inl h
    · rcases ih h with h | h
      · left; exact Or.inr (List.mem_cons.mp h)
      · right; exact h

theorem mem_jsTrim {c : Char} {l : List Char} (h : c ∈ jsTrim l) : c ∈ l := by
  unfold jsTrim at h
  rw [List.mem_reverse] at h
  have h2 := mem_dropWhile h
  rw [List.mem_reverse] at h2
  exact mem_dropWhile h2

/-! Head-characterization lemmas: the first character each stage emits. -/

theorem splitLD_head (x : Char) (t : List Char) :
    ∃ t2, splitLD (x :: t) = x :: t2 := by
  cases t with
  | nil => exact ⟨[], rfl⟩
  | cons b rest =>
    by_cases hc : (isAsciiLetter x && isAsciiDigit b) = true
    · exact ⟨_, by rw [splitLD, if_pos hc]⟩
    · exact ⟨_, by rw [splitLD, if_neg hc]⟩

theorem splitDL_head (x : Char) (t : List Char) :
    ∃ t2, splitDL (x :: t) = x :: t2 := by
  cases t with
  | nil => exact ⟨[], rfl⟩
  | cons b rest =>
    by_cases hc : (isAsciiDigit x && isAsciiLetter b) = true
    · exact ⟨_, by rw [splitDL, if_pos hc]⟩
    · exact ⟨_, by rw [splitDL, if_neg hc]⟩

/-- The head of `collapseWs (b :: t)` is `b` itself or a space standing
for a whitespace run that began with `b`. -/
theorem collapseWs_head (b : Char) (t : List Char) :
    ∃ h2 t2, collapseWs (b :: t) = h2 :: t2 ∧ (h2 = b ∨ (h2 = ' ' ∧ isJsWs b = true)) := by
  cases t with
  | nil => exact ⟨b, [], by rw [collapseWs], Or.inl rfl⟩
  | cons c rest =>
    by_cases hc : (isJsWs b && isJsWs c) = true
    · refine ⟨' ', _, by rw [collapseWs, if_pos hc], Or.inr ⟨rfl, ?_⟩⟩
      exact (Bool.and_eq_true .. ▸ hc).1
    · exact ⟨b, _, by rw [collapseWs, if_neg hc], Or.inl rfl⟩

/-! Chain-establishment lemmas. -/

theorem splitLD_noLD (l : List Char) : NoLD (splitLD l) := by
  induction l using splitLD.induct with
  | case1 => simp [splitLD, NoLD]
  | case2 c => simp [splitLD, NoLD]
  | case3 a b rest hcond ih =>
    rw [splitLD, if_pos hcond]
    rw [Bool.and_eq_true] at hcond
    refine List.chain'_cons.mpr ⟨by simp [(by decide : isAsciiDigit ' ' = false)], ?_⟩
    refine List.chain'_cons.mpr ⟨by simp [(by decide : isAsciiLetter ' ' = false)], ?_⟩
    cases hsr : splitLD rest with
    | nil => simp
    | cons x t2 =>
      refine List.chain'_cons.mpr ⟨?_, hsr ▸ ih⟩
      intro ⟨hb, _⟩
      exact absurd ⟨hb, hcond.2⟩ (not_letter_and_digit b)
  | case4 a b rest hcond ih =>
    rw [splitLD, if_neg hcond]
    obtain ⟨t2, ht⟩ := splitLD_head b rest
    rw [ht]
    refine List.chain'_cons.mpr ⟨?_, ht ▸ ih⟩
    intro hab
    exact hcond (by rw [Bool.and_eq_true]; exact hab)

theorem splitDL_noDL (l : List Char) : NoDL (splitDL l) := by
  induction l using splitDL.induct with
  | case1 => simp [splitDL, NoDL]
  | case2 c => simp [splitDL, NoDL]
  | case3 a b rest hcond ih =>
    rw [splitDL, if_pos hcond]
    rw [Bool.and_eq_true] at hcond
    refine List.chain'_cons.mpr ⟨by simp [(by decide : isAsciiLetter ' ' = false)], ?_⟩
    refine List.chain'_cons.mpr ⟨by simp [(by decide : isAsciiDigit ' ' = false)], ?_⟩
    cases hsr : splitDL rest with
    | nil => simp
    | cons x t2 =>
      refine List.chain'_cons.mpr ⟨?_, hsr ▸ ih⟩
      intro ⟨hb, _⟩
      exact absurd ⟨hcond.2, hb⟩ (not_letter_and_digit b)
  | case4 a b rest hcond ih =>
    rw [splitDL, if_neg hcond]
    obtain ⟨t2, ht⟩ := splitDL_head b rest
    rw [ht]
    refine List.chain'_cons.mpr ⟨?_, ht ▸ ih⟩
    intro hab
    exact hcond (by rw [Bool.and_eq_true]; exact hab)

/-- Stage `splitDL` inserts only spaces between a digit and a letter, so it
cannot recreate a letter-digit adjacency. -/
theorem splitDL_noLD : ∀ {l : List Char}, NoLD l → NoLD (splitDL l) := by
  intro l
  induction l using splitDL.induct with
  | case1 => intro _; simp [splitDL, NoLD]
  | case2 c => intro h; simpa [splitDL, NoLD] using h
  | case3 a b rest hcond ih =>
    intro h
    rw [splitDL, if_pos hcond]
    rw [Bool.and_eq_true] at hcond
    obtain ⟨hab, hrest⟩ := List.chain'_cons.mp h
    refine List.chain'_cons.mpr ⟨by simp [(by decide : isAsciiDigit ' ' = false)], ?_⟩
    refine List.chain'_cons.mpr ⟨by simp [(by decide : isAsciiLetter ' ' = false)], ?_⟩
    cases rest with
    | nil => simp [splitDL]
    | cons x t =>
      obtain ⟨hbx, ht⟩ := List.chain'_cons.mp hrest
      obtain ⟨t2, h2⟩ := splitDL_head x t
      rw [h2]
      exact List.chain'_cons.mpr ⟨hbx, h2 ▸ ih ht⟩
  | case4 a b rest hcond ih =>
    intro h
    rw [splitDL, if_neg hcond]
    obtain ⟨hab, hrest⟩ := List.chain'_cons.mp h
    obtain ⟨t2, h2⟩ := splitDL_head b rest
    rw [h2]
    exact List.chain'_cons.mpr ⟨hab, h2 ▸ ih hrest⟩

theorem collapseWs_noWW (l : List Char) : NoWW (collapseWs l) := by
  induction l using collapseWs.induct with
  | case1 => rw [collapseWs]; simp [NoWW]
  | case2 c => rw [collapseWs]; simp [NoWW]
  | case3 a b rest hcond ih =>
    rw [collapseWs, if_pos hcond]
    cases hd : rest.dropWhile isJsWs with
    | nil => simpa [NoWW, collapseWs] using ih
    | cons x t =>
      rw [hd] at ih
      obtain ⟨h2, t2, he, hh⟩ := collapseWs_head x t
      rw [he] at ih ⊢
      refine List.chain'_cons.mpr ⟨?_, ih⟩
      rintro ⟨_, hw2⟩
      have hx : isJsWs x = false := dropWhile_head_false rest hd
      rcases hh with h | ⟨h, hw⟩
      · subst h; simp [hx] at hw2
      · subst h
        simp [hx] at hw
  | case4 a b rest hcond ih =>
    rw [collapseWs, if_neg hcond]
    obtain ⟨h2, t2, he, hh⟩ := collapseWs_head b rest
    rw [he] at ih ⊢
    refine List.chain'_cons.mpr ⟨?_, ih⟩
    rintro ⟨hwa, hw2⟩
    rcases hh with h | ⟨h, hw⟩
    · subst h
      exact hcond (by rw [Bool.and_eq_true]; exact ⟨hwa, hw2⟩)
    · subst h
      exact hcond (by rw [Bool.and_eq_true]; exact ⟨hwa, hw⟩)

/-- Generic adjacency preservation for `collapseWs`: a forbidden pair
`p`-then-`q` of non-space-satisfying predicates cannot be created by
collapsing whitespace into single spaces. -/
theorem collapseWs_chain {p q : Char → Bool}
    (hp : p ' ' = false) (hq : q ' ' = false) :
    ∀ {l : List Char},
      List.Chain' (fun a b => ¬(p a = true ∧ q b = true)) l →
      List.Chain' (fun a b => ¬(p a = true ∧ q b = true)) (collapseWs l) := by
  intro l
  induction l using collapseWs.induct with
  | case1 => intro _; rw [collapseWs]; simp
  | case2 c => intro h; rw [collapseWs]; simpa using h
  | case3 a b rest hcond ih =>
    intro h
    rw [collapseWs, if_pos hcond]
    have hrest : List.Chain' _ (rest.dropWhile isJsWs) :=
      chain_dropWhile isJsWs rest ((List.chain'_cons.mp h).2.tail)
    cases hd : rest.dropWhile isJsWs with
    | nil =>
      simpa [collapseWs] using List.chain'_singleton (' ' : Char)
    | cons x t =>
      rw [hd] at hrest ih
      obtain ⟨h2, t2, he, hh⟩ := collapseWs_head x t
      rw [he] at ih ⊢
      refine List.chain'_cons.mpr ⟨?_, ih hrest⟩
      rintro ⟨hpa, _⟩
      simp [hp] at hpa
  | case4 a b rest hcond ih =>
    intro h
    rw [collapseWs, if_neg hcond]
    obtain ⟨hab, hrest⟩ := List.chain'_cons.mp h
    obtain ⟨h2, t2, he, hh⟩ := collapseWs_head b rest
    rw [he] at ih ⊢
    refine List.chain'_cons.mpr ⟨?_, ih hrest⟩
    rintro ⟨hpa, hqh⟩
    rcases hh with hcase | ⟨hcase, _⟩
    · subst hcase; exact hab ⟨hpa, hqh⟩
    · subst hcase; simp [hq] at hqh

/-- Stage `jsTrim` keeps a contiguous segment, so it preserves any `Chain'`. -/
theorem jsTrim_chain {R : Char → Char → Prop} {l : List Char}
    (h : List.Chain' R l) : List.Chain' R (jsTrim l) := by
  unfold jsTrim
  have h1 : List.Chain' R (l.dropWhile isJsWs) := chain_dropWhile isJsWs l h
  have h2 : List.Chain' (flip R) ((l.dropWhile isJsWs).reverse) :=
    (List.chain'_reverse (l := l.dropWhile isJsWs)).mpr h1
  have h3 : List.Chain' (flip R) ((l.dropWhile isJsWs).reverse.dropWhile isJsWs) :=
    chain_dropWhile isJsWs _ h2
  exact (List.chain'_reverse).mp (by simpa [Function.flip_def] using h3)

theorem getLast?_dropWhile_of_ne_nil {p : Char → Bool} {l : List Char}
    (h : l.dropWhile p ≠ []) : (l.dropWhile p).getLast? = l.getLast? := by
  conv_rhs => rw [← List.takeWhile_append_dropWhile (p := p) (l := l)]
  rw [List.getLast?_append_of_ne_nil _ h]

theorem jsTrim_trimmed (l : List Char) : Trimmed (jsTrim l) := by
  constructor
  · intro c hc
    unfold jsTrim at hc
    rw [List.head?_reverse] at hc
    have hne : (l.dropWhile isJsWs).reverse.dropWhile isJsWs ≠ [] := by
      intro he
      rw [he] at hc
      simp at hc
    rw [getLast?_dropWhile_of_ne_nil hne, List.getLast?_reverse] at hc
    cases hd : l.dropWhile isJsWs with
    | nil => rw [hd] at hc; simp at hc
    | cons x t =>
      rw [hd] at hc
      have := dropWhile_head_false l hd
      simp only [List.head?_cons, Option.some.injEq] at hc
      subst hc
      exact this
  · intro c hc
    unfold jsTrim at hc
    rw [List.getLast?_reverse] at hc
    cases hd : (l.dropWhile isJsWs).reverse.dropWhile isJsWs with
    | nil => rw [hd] at hc; simp at hc
    | cons x t =>
      rw [hd] at hc
      have := dropWhile_head_false _ hd
      simp only [List.head?_cons, Option.some.injEq] at hc
      subst hc
      exact this

/-- Every output of the full normalizer satisfies all six invariants. -/
theorem normalizeWeird_invariants (l : List Char) :
    NoZW (normalizeWeird l) ∧ NoWeird (normalizeWeird l) ∧
    NoLD (normalizeWeird l) ∧ NoDL (normalizeWeird l) ∧
    NoWW (normalizeWeird l) ∧ Trimmed (normalizeWeird l) := by
  unfold normalizeWeird
  set L0 := stripInvisible l with hL0
  set L1 := collapseSeps L0 with hL1
  set L2 := splitLD L1 with hL2
  set L3 := splitDL L2 with hL3
  set L4 := collapseWs L3 with hL4
  have mem4 : ∀ c ∈ L4, c ∈ L3 ∨ c = ' ' := fun c hc => mem_collapseWs hc
  have mem3 : ∀ c ∈ L3, c ∈ L2 ∨ c = ' ' := fun c hc => mem_splitDL hc
  have mem2 : ∀ c ∈ L2, c ∈ L1 ∨ c = ' ' := fun c hc => mem_splitLD hc
  have mem1 : ∀ c ∈ L1, c ∈ L0 ∨ c = '-' := fun c hc => mem_collapseSeps hc
  have memT : ∀ c ∈ jsTrim L4, c ∈ L4 := fun c hc => mem_jsTrim hc
  have charOK : ∀ c ∈ jsTrim L4, isZeroWidth c = false ∧ isWeirdSep c = false := by
    intro c hc
    rcases mem4 c (memT c hc) with h3 | h3
    · rcases mem3 c h3 with h2 | h2
      · rcases mem2 c h2 with h1 | h1
        · rcases mem1 c h1 with h0 | h0
          · exact ⟨stripInvisible_noZW l c h0, collapseSeps_noWeird L0 c h1⟩
          · subst h0; exact ⟨hyphen_facts.1, hyphen_facts.2.1⟩
        · subst h1; exact ⟨space_facts.1, space_facts.2.1⟩
      · subst h2; exact ⟨space_facts.1, space_facts.2.1⟩
    · subst h3; exact ⟨space_facts.1, space_facts.2.1⟩
  refine ⟨fun c hc => (charOK c hc).1, fun c hc => (charOK c hc).2, ?_, ?_, ?_, ?_⟩
  · exact jsTrim_chain (collapseWs_chain (by decide) (by decide) (splitDL_noLD (splitLD_noLD L1)))
  · exact jsTrim_chain (collapseWs_chain (by decide) (by decide) (splitDL_noDL L2))
  · exact jsTrim_chain (collapseWs_noWW L3)
  · exact jsTrim_trimmed L4

/-! ### Pagination lemmas (claim C8) -/

theorem paginateAux_length (k : Nat) (hk : 0 < k) :
    ∀ (fuel : Nat) (l : List (List Char)), l.length < fuel →
      (paginateAux fuel l k).length = (l.length + k - 1) / k := by
  intro fuel
  induction fuel with
  | zero => intro l h; omega
  | succ fuel ih =>
    intro l h
    by_cases hl : l = []
    · subst hl
      rw [paginateAux, if_pos (Or.inl rfl)]
      simp only [List.length_nil, Nat.zero_add]
      rw [Nat.div_eq_of_lt (by omega)]
    · have hk0 : k ≠ 0 := by omega
      rw [paginateAux, if_neg (by simp [hl, hk0])]
      have hn : 0 < l.length := List.length_pos.mpr hl
      have ihd := ih (l.drop k) (by simp only [List.length_drop]; omega)
      simp only [List.length_cons, ihd, List.length_drop]
      rcases le_or_lt l.length k with hle | hlt
      · have h1 : l.length - k = 0 := by omega
        have h2 : l.length + k - 1 = (l.length - 1) + k := by omega
        rw [h1, h2, Nat.add_div_right _ hk, Nat.div_eq_of_lt (by omega),
            Nat.div_eq_of_lt (by omega)]
      · have h1 : l.length - k + k - 1 = (l.length - 1 - k) + k := by omega
        have h2 : l.length + k - 1 = (l.length - 1) + k := by omega
        have h3 : l.length - 1 - k + k = l.length - 1 := by omega
        have h4 : (l.length - 1) / k = (l.length - 1 - k) / k + 1 := by
          conv_lhs => rw [← h3]
          exact Nat.add_div_right _ hk
        rw [h1, h2, Nat.add_div_right _ hk, Nat.add_div_right _ hk, h4]

theorem paginateLines_length (k : Nat) (hk : 0 < k) (l : List (List Char)) :
    (paginateLines l k).length = (l.length + k - 1) / k :=
  paginateAux_length k hk (l.length + 1) l (by omega)

theorem paginateAux_pages (k : Nat) (hk : 0 < k) :
    ∀ (fuel : Nat) (l : List (List Char)), l.length < fuel →
      (∀ p ∈ (paginateAux fuel l k).dropLast, p.length = k) ∧
      (∀ p ∈ paginateAux fuel l k, 0 < p.length ∧ p.length ≤ k) := by
  intro fuel
  induction fuel with
  | zero => intro l h; omega
  | succ fuel ih =>
    intro l h
    by_cases hl : l = []
    · subst hl
      rw [paginateAux, if_pos (Or.inl rfl)]
      simp
    · have hk0 : k ≠ 0 := by omega
      rw [paginateAux, if_neg (by simp [hl, hk0])]
      have hn : 0 < l.length := List.length_pos.mpr hl
      have hfd : (l.drop k).length < fuel := by simp only [List.length_drop]; omega
      have ihd := ih (l.drop k) hfd
      constructor
      · intro p hp
        cases hrec : paginateAux fuel (l.drop k) k with
        | nil => rw [hrec] at hp; simp at hp
        | cons q t =>
          rw [hrec, List.dropLast_cons_of_ne_nil (by simp)] at hp
          rcases List.mem_cons.mp hp with hcase | hcase
          · subst hcase
            have hd : l.drop k ≠ [] := by
              intro he
              rw [he] at hrec
              cases fuel with
              | zero => simp [paginateAux] at hrec
              | succ f2 =>
                rw [paginateAux, if_pos (Or.inl rfl)] at hrec
                exact absurd hrec (by simp)
            have hklt : k < l.length := by
              have := List.length_pos.mpr hd
              simp only [List.length_drop] at this
              omega
            simp only [List.length_take]
            omega
          · exact ihd.1 p (by rw [hrec]; exact hcase)
      · intro p hp
        rcases List.mem_cons.mp hp with hcase | hcase
        · subst hcase
          simp only [List.length_take]
          omega
        · exact ihd.2 p hcase

theorem paginateLines_pages (k : Nat) (hk : 0 < k) (l : List (List Char)) :
    (∀ p ∈ (paginateLines l k).dropLast, p.length = k) ∧
    (∀ p ∈ paginateLines l k, 0 < p.length ∧ p.length ≤ k) :=
  paginateAux_pages k hk (l.length + 1) l (by omega)

/-! ### Claim theorems -/

/-- C5: the text normalizer `normalizeWeird` (strip zero-width/soft-hyphen
code points, collapse runs of the separator glyphs to a single hyphen,
split letter/digit adjacencies with a space, collapse whitespace runs to
one space, trim) is idempotent: applying it twice yields the same result
as applying it once, for every string. -/
theorem C5_normalizeWeird_idempotent (l : List Char) :
    normalizeWeird (normalizeWeird l) = normalizeWeird l := by
  obtain ⟨hz, hw, hld, hdl, hww, ht⟩ := normalizeWeird_invariants l
  set m := normalizeWeird l with hm
  rw [normalizeWeird, stripInvisible_eq_self hz, collapseSeps_eq_self hw,
      splitLD_eq_self hld, splitDL_eq_self hdl, collapseWs_eq_self hww,
      jsTrim_eq_self ht]

/-- C6: the coordinate conversion of `inplaceReplace` computes
`scaleX = destWidth/viewportWidth`, `scaleY = destHeight/viewportHeight`,
`x = minX*scaleX`, `width = (maxX-minX)*scaleX`,
`height = (topY-bottomY)*scaleY`, `y = destHeight - topY*scaleY - height`;
and whenever the source viewport dimensions equal the (nonzero)
destination page dimensions it is a pure axis flip with no scaling
distortion: `x = minX`, `width = maxX - minX`, `height = topY - bottomY`,
`y = sourceViewport.height - topY - height`. -/
theorem C6_convertBox_scale_invariance (box : SrcBox) (viewport dest : Size)
    (hw : viewport.width ≠ 0) (hh : viewport.height ≠ 0) :
    (convertBox box viewport dest).x = box.minX * (dest.width / viewport.width) ∧
    (convertBox box viewport dest).width =
      (box.maxX - box.minX) * (dest.width / viewport.width) ∧
    (convertBox box viewport dest).height =
      (box.topY - box.bottomY) * (dest.height / viewport.height) ∧
    (convertBox box viewport dest).y =
      dest.height - box.topY * (dest.height / viewport.height) -
        (convertBox box viewport dest).height ∧
    (dest.width = viewport.width → dest.height = viewport.height →
      (convertBox box viewport dest).x = box.minX ∧
      (convertBox box viewport dest).width = box.maxX - box.minX ∧
      (convertBox box viewport dest).height = box.topY - box.bottomY ∧
      (convertBox box viewport dest).y =
        viewport.height - box.topY - (convertBox box viewport dest).height) := by
  refine ⟨rfl, rfl, rfl, rfl, ?_⟩
  intro h1 h2
  simp only [convertBox, h1, h2, div_self hw, div_self hh, mul_one]
  exact ⟨trivial, trivial, trivial, trivial⟩

/-- Witness for C6 at the concrete Letter-size viewport 612×792 and an
equal destination page. -/
theorem C6_convertBox_scale_invariance_witness :
    (612 : ℚ) ≠ 0 ∧ (792 : ℚ) ≠ 0 ∧
    (convertBox ⟨10, 50, 700, 690⟩ ⟨612, 792⟩ ⟨612, 792⟩).x = 10 ∧
    (convertBox ⟨10, 50, 700, 690⟩ ⟨612, 792⟩ ⟨612, 792⟩).y = 792 - 700 - 10 := by
  refine ⟨by norm_num, by norm_num, ?_⟩
  have h := C6_convertBox_scale_invariance ⟨10, 50, 700, 690⟩ ⟨612, 792⟩ ⟨612, 792⟩
    (by norm_num) (by norm_num)
  obtain ⟨hx, hwd, hht, hy⟩ := h.2.2.2.2 rfl rfl
  constructor
  · exact hx
  · rw [hy, hht]
    norm_num

/-- C8: the paginator groups the wrapped lines, in order, into pages of at
most `maxLines` lines, where `maxLines = ⌊(pageHeight - 2*margin)/lineHeight⌋`;
every page except possibly the last holds exactly `maxLines` lines, a list
of `n` lines yields `⌈n/maxLines⌉` pages, and 23 lines at 10 per page give
exactly 3 pages of 10, 10 and 3 lines. -/
theorem C8_paginate_pages (l : List (List Char)) (k : Nat) (hk : 0 < k) :
    (paginateLines l k).length = (l.length + k - 1) / k ∧
    (∀ p ∈ (paginateLines l k).dropLast, p.length = k) ∧
    (∀ p ∈ paginateLines l k, 0 < p.length ∧ p.length ≤ k) ∧
    (∀ pageH margin lineH : ℚ, maxLinesOf pageH margin lineH =
      ⌊(pageH - 2 * margin) / lineH⌋) ∧
    (paginateLines (List.replicate 23 ['x']) 10).map List.length = [10, 10, 3] := by
  refine ⟨paginateLines_length k hk l, (paginateLines_pages k hk l).1,
    (paginateLines_pages k hk l).2, ?_, ?_⟩
  · intro pageH margin lineH
    unfold maxLinesOf
    ring_nf
  · decide

/-- Witness for C8 at the concrete 23-line, 10-per-page scenario. -/
theorem C8_paginate_pages_witness :
    0 < 10 ∧
    (paginateLines (List.replicate 23 (['x'] : List Char)) 10).length =
      ((List.replicate 23 (['x'] : List Char)).length + 10 - 1) / 10 :=
  ⟨by norm_num, (C8_paginate_pages (List.replicate 23 ['x']) 10 (by norm_num)).1⟩

/-- C10: when the request body is absent or lacks a truthy `pdfUrl` or a
truthy `newNumber`, the handler responds 400 with the fixed error message
"Missing pdfUrl or newNumber" and performs no fetch and no processing —
the guard precedes every other effect. -/
theorem C10_handler_missing_params (body : Option ReqBody)
    (h : truthy (reqOf body).pdfUrl = false ∨
         truthy (reqOf body).newNumber = false) :
    handlerModel body =
      (Response.status 400 (some "Missing pdfUrl or newNumber".toList), []) := by
  unfold handlerModel
  rcases h with h | h <;> rw [h] <;> simp

/-- Witness for C10: an absent body is rejected with 400 and no effects. -/
theorem C10_handler_missing_params_witness :
    truthy (reqOf none).pdfUrl = false ∧
    handlerModel none =
      (Response.status 400 (some "Missing pdfUrl or newNumber".toList), []) :=
  ⟨rfl, C10_handler_missing_params none (Or.inl rfl)⟩

theorem flatMap_eq_nil_of_forall {α β : Type} {l : List α} {f : α → List β}
    (h : ∀ x ∈ l, f x = []) : l.flatMap f = [] := by
  induction l with
  | nil => rfl
  | cons a t ih =>
    rw [List.flatMap_cons, h a (List.mem_cons_self a t),
      ih (fun x hx => h x (List.mem_cons_of_mem a hx))]
    rfl

/-- C9: on an input document none of whose assembled line texts contains a
phone-pattern match, the in-place pipeline draws no rectangle and no text
on any output page — the copied pages pass through unchanged — and an
output document is still produced (one entry per input page). -/
theorem C9_no_match_no_draws (pages : List PageInput) (newNumber : List Char)
    (h : ∀ p ∈ pages, ∀ L ∈ assemble p.frags, findMatches L.text = []) :
    inplaceReplace pages newNumber = pages.map (fun p => (p, ([] : List DrawOp))) ∧
    (inplaceReplace pages newNumber).map Prod.fst = pages := by
  have hmain : inplaceReplace pages newNumber = pages.map (fun p => (p, ([] : List DrawOp))) := by
    unfold inplaceReplace
    apply List.map_congr_left
    intro p hp
    have hops : opsForPage p newNumber = [] := by
      unfold opsForPage
      apply flatMap_eq_nil_of_forall
      intro L hL
      unfold opsForLine
      rw [h p hp L hL]
      rfl
    rw [hops]
  refine ⟨hmain, ?_⟩
  rw [hmain]
  clear hmain h
  induction pages with
  | nil => rfl
  | cons p t ih =>
    simp only [List.map_cons]
    rw [ih]

/-- Witness for C9: a one-fragment page containing no digits passes
through with zero draw operations. -/
theorem C9_no_match_no_draws_witness :
    (∀ p ∈ [(⟨[⟨"hello world".toList, 0, 100, 50, 10⟩], ⟨612, 792⟩, ⟨612, 792⟩⟩ : PageInput)],
       ∀ L ∈ assemble p.frags, findMatches L.text = []) ∧
    inplaceReplace [(⟨[⟨"hello world".toList, 0, 100, 50, 10⟩], ⟨612, 792⟩, ⟨612, 792⟩⟩ : PageInput)]
        "+1-999-0000".toList =
      [(⟨[⟨"hello world".toList, 0, 100, 50, 10⟩], ⟨612, 792⟩, ⟨612, 792⟩⟩, [])] := by
  constructor
  · decide
  · have h := (C9_no_match_no_draws
      [(⟨[⟨"hello world".toList, 0, 100, 50, 10⟩], ⟨612, 792⟩, ⟨612, 792⟩⟩ : PageInput)]
      "+1-999-0000".toList (by decide)).1
    rw [h]
    rfl

/-! ### Span partition invariant (claim C1) -/

/-- Predicate: `spans` tile the half-open range from `a` to `b`: consecutive,
non-overlapping, gap-free, first start `a`, last stop `b`. -/
def CoversFrom : Nat → List Span → Nat → Prop
  | a, [], b => a = b
  | a, sp :: rest, b => sp.start = a ∧ a ≤ sp.stop ∧ CoversFrom sp.stop rest b

theorem CoversFrom_le : ∀ {a : Nat} {spans : List Span} {b : Nat},
    CoversFrom a spans b → a ≤ b := by
  intro a spans
  induction spans generalizing a with
  | nil => intro b h; exact h.le
  | cons sp rest ih =>
    intro b h
    obtain ⟨h1, h2, h3⟩ := h
    exact le_trans h2 (ih h3)

theorem CoversFrom_snoc : ∀ {a : Nat} {spans : List Span} {m m2 : Nat} {i : Int},
    CoversFrom a spans m → m ≤ m2 →
    CoversFrom a (spans ++ [⟨m, m2, i⟩]) m2 := by
  intro a spans
  induction spans generalizing a with
  | nil => intro m m2 i h hle; exact ⟨h.symm, h ▸ hle, rfl⟩
  | cons sp rest ih =>
    intro m m2 i h hle
    obtain ⟨h1, h2, h3⟩ := h
    exact ⟨h1, h2, ih h3 hle⟩

/-- Concatenating the denoted substrings of a tiling of `[a, b)`
reproduces the slice `[a, b)` of the text. -/
theorem CoversFrom_concat {text : List Char} :
    ∀ {spans : List Span} {a b : Nat}, CoversFrom a spans b → b ≤ text.length →
      spans.flatMap (fun sp => (text.drop sp.start).take (sp.stop - sp.start)) =
        (text.drop a).take (b - a) := by
  intro spans
  induction spans with
  | nil =>
    intro a b h hb
    subst h
    simp
  | cons sp rest ih =>
    intro a b h hb
    obtain ⟨h1, h2, h3⟩ := h
    have hstop : sp.stop ≤ b := CoversFrom_le h3
    rw [List.flatMap_cons, ih h3 hb, h1]
    have hsplit : b - a = (sp.stop - a) + (b - sp.stop) := by omega
    rw [hsplit, List.take_add, List.drop_drop]
    have heq : a + (sp.stop - a) = sp.stop := by omega
    rw [heq]

/-- Index validity for a span relative to an item count. -/
def idxOK (sp : Span) (n : Nat) : Prop :=
  sp.itemIndex = -1 ∨ (0 ≤ sp.itemIndex ∧ sp.itemIndex < (n : Int))

theorem idxOK_mono {sp : Span} {n m : Nat} (h : idxOK sp n) (hle : n ≤ m) :
    idxOK sp m := by
  rcases h with h | ⟨h1, h2⟩
  · exact Or.inl h
  · exact Or.inr ⟨h1, lt_of_lt_of_le h2 (by exact_mod_cast hle)⟩

/-- The span-building loop preserves the tiling and index-validity
invariants of its accumulators. -/
theorem buildRest_invariant :
    ∀ (rest : List Frag) (prev : Frag) (idx : Nat) (text : List Char) (spans : List Span),
      CoversFrom 0 spans text.length →
      (∀ sp ∈ spans, idxOK sp idx) →
      CoversFrom 0 (buildRest prev idx text spans rest).2
          (buildRest prev idx text spans rest).1.length ∧
      (∀ sp ∈ (buildRest prev idx text spans rest).2, idxOK sp (idx + rest.length)) := by
  intro rest
  induction rest with
  | nil =>
    intro prev idx text spans hcov hidx
    exact ⟨hcov, fun sp hsp => by simpa using hidx sp hsp⟩
  | cons it rest ih =>
    intro prev idx text spans hcov hidx
    rw [buildRest]
    by_cases hgap : it.x - (prev.x + prev.width) > WORD_GAP_TOL
    · simp only [if_pos hgap]
      have hcov1 : CoversFrom 0 (spans ++ [⟨text.length, text.length + 1, -1⟩])
          (text ++ [' ']).length := by
        have := @CoversFrom_snoc 0 spans text.length (text.length + 1) (-1) hcov (by omega)
        simpa using this
      have hcov2 : CoversFrom 0
          ((spans ++ [⟨text.length, text.length + 1, -1⟩]) ++
            [⟨(text ++ [' ']).length, ((text ++ [' ']) ++ it.str).length, (idx : Int)⟩])
          ((text ++ [' ']) ++ it.str).length := by
        apply CoversFrom_snoc hcov1
        simp
      have hidx2 : ∀ sp ∈ (spans ++ [⟨text.length, text.length + 1, -1⟩]) ++
          [⟨(text ++ [' ']).length, ((text ++ [' ']) ++ it.str).length, (idx : Int)⟩],
          idxOK sp (idx + 1) := by
        intro sp hsp
        rcases List.mem_append.mp hsp with hsp | hsp
        · rcases List.mem_append.mp hsp with hsp | hsp
          · exact idxOK_mono (hidx sp hsp) (by omega)
          · rw [List.mem_singleton.mp hsp]
            exact Or.inl rfl
        · rw [List.mem_singleton.mp hsp]
          refine Or.inr ⟨?_, ?_⟩
          · show (0 : Int) ≤ (idx : Int)
            exact_mod_cast Nat.zero_le idx
          · show (idx : Int) < ((idx + 1 : Nat) : Int)
            exact_mod_cast Nat.lt_succ_self idx
      have := ih it (idx + 1) ((text ++ [' ']) ++ it.str)
        ((spans ++ [⟨text.length, text.length + 1, -1⟩]) ++
          [⟨(text ++ [' ']).length, ((text ++ [' ']) ++ it.str).length, (idx : Int)⟩])
        hcov2 hidx2
      refine ⟨this.1, fun sp hsp => ?_⟩
      have := this.2 sp hsp
      simp only [List.length_cons] at *
      exact idxOK_mono this (by omega)
    · simp only [if_neg hgap]
      have hcov2 : CoversFrom 0
          (spans ++ [⟨text.length, (text ++ it.str).length, (idx : Int)⟩])
          (text ++ it.str).length := by
        apply CoversFrom_snoc hcov
        simp
      have hidx2 : ∀ sp ∈ spans ++ [⟨text.length, (text ++ it.str).length, (idx : Int)⟩],
          idxOK sp (idx + 1) := by
        intro sp hsp
        rcases List.mem_append.mp hsp with hsp | hsp
        · exact idxOK_mono (hidx sp hsp) (by omega)
        · rw [List.mem_singleton.mp hsp]
          refine Or.inr ⟨?_, ?_⟩
          · show (0 : Int) ≤ (idx : Int)
            exact_mod_cast Nat.zero_le idx
          · show (idx : Int) < ((idx + 1 : Nat) : Int)
            exact_mod_cast Nat.lt_succ_self idx
      have := ih it (idx + 1) (text ++ it.str)
        (spans ++ [⟨text.length, (text ++ it.str).length, (idx : Int)⟩]) hcov2 hidx2
      refine ⟨this.1, fun sp hsp => ?_⟩
      have := this.2 sp hsp
      simp only [List.length_cons] at *
      exact idxOK_mono this (by omega)

theorem buildLine_invariant (items : List Frag) :
    CoversFrom 0 (buildLine items).2 (buildLine items).1.length ∧
    ∀ sp ∈ (buildLine items).2, idxOK sp items.length := by
  cases items with
  | nil => exact ⟨rfl, by simp [buildLine]⟩
  | cons it rest =>
    rw [buildLine]
    have h0 : CoversFrom 0 ([⟨0, it.str.length, 0⟩] : List Span) it.str.length :=
      ⟨rfl, by omega, rfl⟩
    have hidx0 : ∀ sp ∈ ([⟨0, it.str.length, 0⟩] : List Span), idxOK sp 1 := by
      intro sp hsp
      rw [List.mem_singleton.mp hsp]
      refine Or.inr ⟨le_refl 0, ?_⟩
      show (0 : Int) < ((1 : Nat) : Int)
      exact_mod_cast Nat.zero_lt_one
    have := buildRest_invariant rest it 1 it.str [⟨0, it.str.length, 0⟩] h0 hidx0
    refine ⟨this.1, fun sp hsp => ?_⟩
    have h2 := this.2 sp hsp
    simp only [List.length_cons]
    exact idxOK_mono h2 (by omega)

/-- C1: every `Line` assembled by `inplaceReplace`'s span-building loop
satisfies the span partition invariant: the spans tile `[0, text.length)`
contiguously, in order, without overlaps or gaps; concatenating the
denoted substrings reproduces `Line.text`; and every span with a present
(non-sentinel) `itemIndex` references a valid index into the line's
fragment list. -/
theorem C1_span_partition (frags : List Frag) :
    ∀ L ∈ assemble frags,
      CoversFrom 0 L.spans L.text.length ∧
      L.spans.flatMap (fun sp => (L.text.drop sp.start).take (sp.stop - sp.start)) = L.text ∧
      ∀ sp ∈ L.spans, sp.itemIndex = -1 ∨
        (0 ≤ sp.itemIndex ∧ sp.itemIndex < (L.items.length : Int)) := by
  intro L hL
  unfold assemble at hL
  obtain ⟨acc, hacc, hLeq⟩ := List.mem_map.mp hL
  obtain ⟨hcov, hidx⟩ := buildLine_invariant acc.items
  subst hLeq
  refine ⟨hcov, ?_, hidx⟩
  have := @CoversFrom_concat (buildLine acc.items).1 (buildLine acc.items).2 0
    (buildLine acc.items).1.length hcov le_rfl
  simpa using this

/-- Witness for C1 at a concrete one-fragment line. -/
theorem C1_span_partition_witness :
    ((⟨0, [⟨"ab".toList, 0, 0, 1, 1⟩], "ab".toList, [⟨0, 2, 0⟩]⟩ : Line) ∈
      assemble [⟨"ab".toList, 0, 0, 1, 1⟩]) ∧
    CoversFrom 0 [(⟨0, 2, 0⟩ : Span)] ("ab".toList).length := by
  constructor
  · exact List.mem_singleton.mpr rfl
  · exact (C1_span_partition [⟨"ab".toList, 0, 0, 1, 1⟩]
      ⟨0, [⟨"ab".toList, 0, 0, 1, 1⟩], "ab".toList, [⟨0, 2, 0⟩]⟩
      (List.mem_singleton.mpr rfl)).1

/-! ### Word-gap space insertion (claim C2) -/

/-- Number of consecutive fragment pairs whose horizontal gap
`next.x - (prev.x + prev.width)` exceeds the tolerance — the number of
spaces the span-building loop inserts. -/
def numGaps : List Frag → Nat
  | a :: b :: rest =>
    (if b.x - (a.x + a.width) > WORD_GAP_TOL then 1 else 0) + numGaps (b :: rest)
  | _ => 0

theorem natCast_beq_neg_one (idx : Nat) : (((idx : Int)) == -1) = false := by
  rw [beq_eq_false_iff_ne]
  intro h
  omega

/-- The loop emits exactly one spanless span per oversized gap, and each
such span is a single character that reads back as a space. -/
theorem buildRest_space_spans :
    ∀ (rest : List Frag) (prev : Frag) (idx : Nat) (text : List Char) (spans : List Span),
      (∀ sp ∈ spans, sp.itemIndex = -1 →
        sp.stop = sp.start + 1 ∧ sp.start < text.length ∧ text.get? sp.start = some ' ') →
      ((buildRest prev idx text spans rest).2.countP (fun sp => sp.itemIndex == -1) =
        spans.countP (fun sp => sp.itemIndex == -1) + numGaps (prev :: rest)) ∧
      (∀ sp ∈ (buildRest prev idx text spans rest).2, sp.itemIndex = -1 →
        sp.stop = sp.start + 1 ∧ sp.start < (buildRest prev idx text spans rest).1.length ∧
          (buildRest prev idx text spans rest).1.get? sp.start = some ' ') := by
  intro rest
  induction rest with
  | nil =>
    intro prev idx text spans hsp
    refine ⟨?_, hsp⟩
    rw [show numGaps [prev] = 0 from rfl, Nat.add_zero]
    rfl
  | cons it rest ih =>
    intro prev idx text spans hsp
    rw [buildRest]
    by_cases hgap : it.x - (prev.x + prev.width) > WORD_GAP_TOL
    · simp only [if_pos hgap]
      have hsp2 : ∀ sp ∈ (spans ++ [⟨text.length, text.length + 1, -1⟩]) ++
          [⟨(text ++ [' ']).length, ((text ++ [' ']) ++ it.str).length, (idx : Int)⟩],
          sp.itemIndex = -1 →
          sp.stop = sp.start + 1 ∧ sp.start < ((text ++ [' ']) ++ it.str).length ∧
            ((text ++ [' ']) ++ it.str).get? sp.start = some ' ' := by
        intro sp hmem hneg
        rcases List.mem_append.mp hmem with hmem | hmem
        · rcases List.mem_append.mp hmem with hmem | hmem
          · obtain ⟨e1, e2, e3⟩ := hsp sp hmem hneg
            refine ⟨e1, by simp; omega, ?_⟩
            rw [List.append_assoc, List.get?_append e2]
            exact e3
          · rw [List.mem_singleton.mp hmem]
            refine ⟨rfl, by simp, ?_⟩
            show ((text ++ [' ']) ++ it.str).get? text.length = some ' '
            rw [List.get?_append (by simp)]
            exact List.get?_concat_length text ' '
        · rw [List.mem_singleton.mp hmem] at hneg
          have hb := natCast_beq_neg_one idx
          rw [show ((⟨(text ++ [' ']).length, ((text ++ [' ']) ++ it.str).length,
              (idx : Int)⟩ : Span)).itemIndex = (idx : Int) from rfl] at hneg
          rw [hneg] at hb
          simp at hb
      have hrec := ih it (idx + 1) ((text ++ [' ']) ++ it.str)
        ((spans ++ [⟨text.length, text.length + 1, -1⟩]) ++
          [⟨(text ++ [' ']).length, ((text ++ [' ']) ++ it.str).length, (idx : Int)⟩]) hsp2
      refine ⟨?_, hrec.2⟩
      rw [hrec.1, List.countP_append, List.countP_append]
      simp only [List.countP_singleton, natCast_beq_neg_one idx]
      rw [show numGaps (prev :: it :: rest) = 1 + numGaps (it :: rest) from by
        rw [numGaps, if_pos hgap]]
      simp
      omega
    · simp only [if_neg hgap]
      have hsp2 : ∀ sp ∈ spans ++ [⟨text.length, (text ++ it.str).length, (idx : Int)⟩],
          sp.itemIndex = -1 →
          sp.stop = sp.start + 1 ∧ sp.start < (text ++ it.str).length ∧
            (text ++ it.str).get? sp.start = some ' ' := by
        intro sp hmem hneg
        rcases List.mem_append.mp hmem with hmem | hmem
        · obtain ⟨e1, e2, e3⟩ := hsp sp hmem hneg
          refine ⟨e1, by simp; omega, ?_⟩
          rw [List.get?_append e2]
          exact e3
        · rw [List.mem_singleton.mp hmem] at hneg
          have := natCast_beq_neg_one idx
          rw [show ((⟨text.length, (text ++ it.str).length, (idx : Int)⟩ : Span)).itemIndex
            = (idx : Int) from rfl] at hneg
          rw [hneg] at this
          simp at this
      have hrec := ih it (idx + 1) (text ++ it.str)
        (spans ++ [⟨text.length, (text ++ it.str).length, (idx : Int)⟩]) hsp2
      refine ⟨?_, hrec.2⟩
      rw [hrec.1, List.countP_append]
      simp only [List.countP_singleton, natCast_beq_neg_one idx]
      rw [show numGaps (prev :: it :: rest) = 0 + numGaps (it :: rest) from by
        rw [numGaps, if_neg hgap]]
      simp

theorem buildLine_spaces (items : List Frag) :
    (buildLine items).2.countP (fun sp => sp.itemIndex == -1) = numGaps items ∧
    ∀ sp ∈ (buildLine items).2, sp.itemIndex = -1 →
      sp.stop = sp.start + 1 ∧ sp.start < (buildLine items).1.length ∧
        (buildLine items).1.get? sp.start = some ' ' := by
  cases items with
  | nil => exact ⟨rfl, by simp [buildLine]⟩
  | cons it rest =>
    rw [buildLine]
    have hinit : ∀ sp ∈ ([⟨0, it.str.length, 0⟩] : List Span), sp.itemIndex = -1 →
        sp.stop = sp.start + 1 ∧ sp.start < it.str.length ∧ it.str.get? sp.start = some ' ' := by
      intro sp hmem hneg
      rw [List.mem_singleton.mp hmem] at hneg
      exact absurd hneg (by
        show ¬(0 : Int) = -1
        decide)
    have h := buildRest_space_spans rest it 1 it.str [⟨0, it.str.length, 0⟩] hinit
    refine ⟨?_, h.2⟩
    rw [h.1]
    rw [show (([⟨0, it.str.length, 0⟩] : List Span).countP (fun sp => sp.itemIndex == -1)) = 0
      from by simp [List.countP_singleton]]
    rw [show numGaps (it :: rest) = numGaps (it :: rest) from rfl]
    omega

/-- C2: for every line of sorted fragments, the span-building loop inserts
exactly one literal space character as a spanless (`itemIndex = -1`) span
between two consecutive fragments when the horizontal gap
`next.x - (prev.x + prev.width)` exceeds `WORD_GAP_TOL = 2`, and nothing
otherwise: the number of spanless spans equals the number of oversized
gaps, each spanless span is one character long and denotes a space, and
the two fragments `{"555", x 0, y 100, w 20, h 10}` and
`{"-123-4567", x 25, y 100, w 60, h 10}` (gap 5) assemble into one line
with text `"555 -123-4567"` and a spanless space span from 3 to 4. -/
theorem C2_word_gap_space (items : List Frag) :
    (buildLine items).2.countP (fun sp => sp.itemIndex == -1) = numGaps items ∧
    (∀ sp ∈ (buildLine items).2, sp.itemIndex = -1 →
      sp.stop = sp.start + 1 ∧ sp.start < (buildLine items).1.length ∧
        (buildLine items).1.get? sp.start = some ' ') ∧
    (assemble [⟨"555".toList, 0, 100, 20, 10⟩, ⟨"-123-4567".toList, 25, 100, 60, 10⟩]).map
        (fun L => (L.text, L.spans)) =
      [("555 -123-4567".toList, [⟨0, 3, 0⟩, ⟨3, 4, -1⟩, ⟨4, 13, 1⟩])] := by
  refine ⟨(buildLine_spaces items).1, (buildLine_spaces items).2, ?_⟩
  have hconv0 : ("555".toList : List Char) = ['5', '5', '5'] := rfl
  have hconv1 : ("-123-4567".toList : List Char) =
    ['-', '1', '2', '3', '-', '4', '5', '6', '7'] := rfl
  have hconv2 : ("555 -123-4567".toList : List Char) =
    ['5', '5', '5', ' ', '-', '1', '2', '3', '-', '4', '5', '6', '7'] := rfl
  rw [hconv0, hconv1, hconv2]
  norm_num [assemble, sortLines, groupFrags, insertFrag, stableSortBy, insertBy,
    buildLine, buildRest, LINE_Y_TOL, WORD_GAP_TOL]

/-- Witness for C2: a two-fragment line with gap 9 gets its one spanless
span, a single space character at offset 1. -/
theorem C2_word_gap_space_witness :
    (⟨1, 2, -1⟩ : Span).stop = (⟨1, 2, -1⟩ : Span).start + 1 ∧
    (buildLine [⟨['a'], 0, 0, 1, 1⟩, ⟨['b'], 10, 0, 1, 1⟩]).1.get? 1 = some ' ' := by
  have hb : buildLine [⟨['a'], 0, 0, 1, 1⟩, ⟨['b'], 10, 0, 1, 1⟩] =
      (['a', ' ', 'b'], [⟨0, 1, 0⟩, ⟨1, 2, -1⟩, ⟨2, 3, 1⟩]) := by
    norm_num [buildLine, buildRest, WORD_GAP_TOL]
  have h := (C2_word_gap_space [⟨['a'], 0, 0, 1, 1⟩, ⟨['b'], 10, 0, 1, 1⟩]).2.1
    ⟨1, 2, -1⟩ (by rw [hb]; exact List.mem_cons_of_mem _ (List.mem_cons_self _ _)) rfl
  exact ⟨h.1, h.2.2⟩

/-! ### Shape of phone matches (claims C3, C4) -/

theorem bestKAux_spec : ∀ {r : List Char} {j k : Nat}, bestKAux r j = some k →
    j ≤ k ∧ 7 ≤ k ∧ k - j < r.length ∧ isAsciiDigit (r.getD (k - j) ' ') = true := by
  intro r
  induction r with
  | nil => intro j k h; simp [bestKAux] at h
  | cons c rest ih =>
    intro j k h
    simp only [bestKAux] at h
    cases hrec : bestKAux rest (j + 1) with
    | some k2 =>
      rw [hrec] at h
      simp only [Option.some.injEq] at h
      obtain ⟨h1, h2, h3, h4⟩ := ih hrec
      rw [← h]
      refine ⟨by omega, h2, by simp; omega, ?_⟩
      have hpos : k2 - j = (k2 - (j + 1)) + 1 := by omega
      rw [hpos]
      simpa using h4
    | none =>
      rw [hrec] at h
      by_cases hc : (7 ≤ j && isAsciiDigit c) = true
      · rw [if_pos hc] at h
        simp only [Option.some.injEq] at h
        rw [← h]
        simp only [Bool.and_eq_true, decide_eq_true_eq] at hc
        refine ⟨le_refl j, hc.1, by simp, ?_⟩
        rw [Nat.sub_self]
        simpa using hc.2
      · rw [if_neg hc] at h
        simp at h

theorem take_takeWhile_eq_take {p : Char → Bool} :
    ∀ (l : List Char) (n : Nat), n ≤ (l.takeWhile p).length →
      l.take n = (l.takeWhile p).take n := by
  intro l
  induction l with
  | nil => intro n h; simp
  | cons c rest ih =>
    intro n h
    rw [List.takeWhile_cons] at h ⊢
    by_cases hc : p c = true
    · rw [if_pos hc] at h ⊢
      cases n with
      | zero => simp
      | succ n =>
        simp only [List.take_succ_cons]
        rw [ih n (by simpa using h)]
    · rw [if_neg hc] at h
      simp at h
      subst h
      simp

theorem getLast?_take_succ {l : List Char} {k : Nat} (h : k < l.length) :
    (l.take (k + 1)).getLast? = some (l.getD k ' ') := by
  rw [List.take_succ]
  have h2 : l[k]? = some (l.getD k ' ') := by
    rw [List.getElem?_eq_getElem h]
    rw [List.getD_eq_getElem l ' ' h]
  rw [h2]
  exact List.getLast?_concat _

/-- A successful `phoneCore` match: at least 9 characters, within bounds,
all characters in the phone class, digit-led and digit-terminated. -/
theorem phoneCore_spec : ∀ {l : List Char} {len : Nat}, phoneCore l = some len →
    9 ≤ len ∧ len ≤ l.length ∧
    (∀ c ∈ l.take len, isPhoneClass c = true) ∧
    (∃ d ds, l.take len = d :: ds ∧ isAsciiDigit d = true) ∧
    (∃ e, (l.take len).getLast? = some e ∧ isAsciiDigit e = true) := by
  intro l len h
  match l with
  | [] => simp [phoneCore] at h
  | d :: t =>
    simp only [phoneCore] at h
    by_cases hd : isAsciiDigit d = true
    · rw [if_pos hd] at h
      unfold phoneBody at h
      cases hb : bestKAux (t.takeWhile isPhoneClass) 0 with
      | some k =>
        rw [hb] at h
        simp only [Option.some.injEq] at h
        obtain ⟨_, h7, hklt, hkdig⟩ := bestKAux_spec hb
        simp only [Nat.sub_zero] at hklt hkdig
        have hrunlen : (t.takeWhile isPhoneClass).length ≤ t.length :=
          (List.takeWhile_sublist _).length_le
        have htake : t.take (k + 1) = (t.takeWhile isPhoneClass).take (k + 1) :=
          take_takeWhile_eq_take t (k + 1) (by omega)
        have hlen : len = k + 2 := by omega
        subst hlen
        have htakecons : (d :: t).take (k + 2) = d :: t.take (k + 1) := rfl
        refine ⟨by omega, by simp; omega, ?_, ?_, ?_⟩
        · intro c hc
          rw [htakecons] at hc
          rcases List.mem_cons.mp hc with hc | hc
          · subst hc
            unfold isPhoneClass
            rw [hd]
            rfl
          · rw [htake] at hc
            exact List.mem_takeWhile_imp ((List.take_sublist _ _).mem hc)
        · exact ⟨d, t.take (k + 1), htakecons, hd⟩
        · refine ⟨(t.takeWhile isPhoneClass).getD k ' ', ?_, hkdig⟩
          rw [htakecons]
          have hne : t.take (k + 1) ≠ [] := by
            have : (t.take (k + 1)).length = k + 1 := by
              rw [List.length_take]
              omega
            intro hnil
            rw [hnil] at this
            simp at this
          rw [show (d :: t.take (k + 1)).getLast? = (t.take (k + 1)).getLast? from by
            cases he : t.take (k + 1) with
            | nil => exact absurd he hne
            | cons b t2 => rw [List.getLast?_cons_cons]]
          rw [htake]
          exact getLast?_take_succ hklt
      | none => rw [hb] at h; simp at h
    · rw [if_neg hd] at h
      simp at h

/-- A successful `phoneMatchAt` match: at least 9 characters, in bounds,
and an optional leading `+` followed by a digit-led, digit-terminated run
of phone-class characters. -/
theorem phoneMatchAt_spec {l : List Char} {len : Nat} (h : phoneMatchAt l = some len) :
    9 ≤ len ∧ len ≤ l.length ∧
    ∃ core, (l.take len = core ∨ l.take len = '+' :: core) ∧
      (∀ c ∈ core, isPhoneClass c = true) ∧
      (∃ d ds, core = d :: ds ∧ isAsciiDigit d = true) ∧
      (∃ e, core.getLast? = some e ∧ isAsciiDigit e = true) := by
  match l with
  | [] => simp [phoneMatchAt] at h
  | c :: t =>
    simp only [phoneMatchAt] at h
    by_cases hc : c = '+'
    · rw [if_pos hc] at h
      cases hcore : phoneCore t with
      | some n =>
        rw [hcore] at h
        simp only [Option.some.injEq] at h
        obtain ⟨h9, hlen, hclass, hlead, hlast⟩ := phoneCore_spec hcore
        subst hc
        rw [← h]
        refine ⟨by omega, by simp; omega, t.take n, Or.inr rfl, hclass, hlead, hlast⟩
      | none => rw [hcore] at h; simp at h
    · rw [if_neg hc] at h
      obtain ⟨h9, hlen, hclass, hlead, hlast⟩ := phoneCore_spec h
      exact ⟨h9, hlen, (c :: t).take len, Or.inl rfl, hclass, hlead, hlast⟩

/-- Every triple the scan loop emits lies at or after the scan origin,
is internally consistent (`end = start + length`, text is the denoted
slice) and comes from a successful match at its start offset. -/
theorem phoneScanAux_mem (s : List Char) :
    ∀ (fuel pos : Nat) (m : Nat × Nat × List Char), m ∈ phoneScanAux s fuel pos →
      pos ≤ m.1 ∧ m.2.1 = m.1 + m.2.2.length ∧
      phoneMatchAt (s.drop m.1) = some m.2.2.length ∧
      m.2.2 = (s.drop m.1).take m.2.2.length := by
  intro fuel
  induction fuel with
  | zero => intro pos m hm; simp [phoneScanAux] at hm
  | succ fuel ih =>
    intro pos m hm
    rw [phoneScanAux] at hm
    by_cases hlen : s.length ≤ pos
    · rw [if_pos hlen] at hm; simp at hm
    · rw [if_neg hlen] at hm
      cases hmatch : phoneMatchAt (s.drop pos) with
      | some len =>
        rw [hmatch] at hm
        have hbound : len ≤ (s.drop pos).length := (phoneMatchAt_spec hmatch).2.1
        have htlen : ((s.drop pos).take len).length = len := by
          rw [List.length_take]
          omega
        rcases List.mem_cons.mp hm with hm | hm
        · subst hm
          refine ⟨le_refl pos, by rw [htlen], by rw [htlen]; exact hmatch, by rw [htlen]⟩
        · obtain ⟨e1, e2, e3, e4⟩ := ih (pos + len) m hm
          exact ⟨by omega, e2, e3, e4⟩
      | none =>
        rw [hmatch] at hm
        obtain ⟨e1, e2, e3, e4⟩ := ih (pos + 1) m hm
        exact ⟨by omega, e2, e3, e4⟩

/-- The emitted matches are ordered: each match starts at or after the
previous one's end. -/
theorem phoneScanAux_chain (s : List Char) :
    ∀ (fuel pos : Nat),
      List.Chain' (fun m1 m2 => m1.2.1 ≤ m2.1) (phoneScanAux s fuel pos) := by
  intro fuel
  induction fuel with
  | zero => intro pos; simp [phoneScanAux]
  | succ fuel ih =>
    intro pos
    rw [phoneScanAux]
    by_cases hlen : s.length ≤ pos
    · rw [if_pos hlen]; simp
    · rw [if_neg hlen]
      cases hmatch : phoneMatchAt (s.drop pos) with
      | some len =>
        rw [List.chain'_cons']
        refine ⟨?_, ih (pos + len)⟩
        intro m2 hm2
        have hmem : m2 ∈ phoneScanAux s fuel (pos + len) := by
          cases hd : phoneScanAux s fuel (pos + len) with
          | nil => rw [hd] at hm2; simp at hm2
          | cons a t =>
            rw [hd] at hm2
            simp only [List.head?_cons, Option.mem_def, Option.some.injEq] at hm2
            subst hm2
            exact List.mem_cons_self _ t
        have hb := (phoneScanAux_mem s fuel (pos + len) m2 hmem).1
        have hbound : len ≤ (s.drop pos).length := (phoneMatchAt_spec hmatch).2.1
        show pos + len ≤ m2.1
        omega
      | none => exact ih (pos + 1)

/-- C4: for every input string, the match sequence produced by the
repeated `PHONE_RE.exec` loop is ordered left to right and no two matches
overlap: every match's start offset is at least the previous match's end
offset (and each match is nonempty, so the ordering is strict). -/
theorem C4_matches_non_overlapping (s : List Char) :
    (∀ m ∈ findMatches s, m.1 < m.2.1) ∧
    List.Chain' (fun m1 m2 => m1.2.1 ≤ m2.1) (findMatches s) := by
  constructor
  · intro m hm
    obtain ⟨e1, e2, e3, e4⟩ := phoneScanAux_mem s (s.length + 1) 0 m hm
    have h9 := (phoneMatchAt_spec e3).1
    omega
  · exact phoneScanAux_chain s (s.length + 1) 0

/-- C3: the phone matcher on `"call 555-123-4567 now"` yields exactly the
single match `(5, 17, "555-123-4567")`; replacing all matches with
`"+1-999-0000"` yields `"call +1-999-0000 now"`; and in general every
match is at least 9 characters long, spans `[start, start+length)`, and
consists of an optional leading `+` followed by a digit, then phone-class
characters (digits, whitespace, hyphens, periods, parentheses) ending in
a digit. -/
theorem C3_phone_matcher_scenario :
    findMatches "call 555-123-4567 now".toList = [(5, 17, "555-123-4567".toList)] ∧
    replaceAll "call 555-123-4567 now".toList "+1-999-0000".toList =
      "call +1-999-0000 now".toList ∧
    ∀ (s : List Char) (m : Nat × Nat × List Char), m ∈ findMatches s →
      9 ≤ m.2.2.length ∧ m.2.1 = m.1 + m.2.2.length ∧
      ∃ core, (m.2.2 = core ∨ m.2.2 = '+' :: core) ∧
        (∀ c ∈ core, isPhoneClass c = true) ∧
        (∃ d ds, core = d :: ds ∧ isAsciiDigit d = true) ∧
        (∃ e, core.getLast? = some e ∧ isAsciiDigit e = true) := by
  refine ⟨by decide, by decide, ?_⟩
  intro s m hm
  obtain ⟨e1, e2, e3, e4⟩ := phoneScanAux_mem s (s.length + 1) 0 m hm
  obtain ⟨h9, hlen, core, hcore, hrest⟩ := phoneMatchAt_spec e3
  rw [← e4] at hcore
  exact ⟨h9, e2, core, hcore, hrest⟩

/-- Witness for C3 at the concrete scenario match. -/
theorem C3_phone_matcher_scenario_witness :
    ((5, 17, "555-123-4567".toList) ∈ findMatches "call 555-123-4567 now".toList) ∧
    9 ≤ ("555-123-4567".toList).length :=
  ⟨by decide,
    (C3_phone_matcher_scenario.2.2 "call 555-123-4567 now".toList
      (5, 17, "555-123-4567".toList) (by decide)).1⟩

/-- Witness for C4 at the concrete scenario match. -/
theorem C4_matches_non_overlapping_witness :
    ((5, 17, "555-123-4567".toList) ∈ findMatches "call 555-123-4567 now".toList) ∧
    (5 : Nat) < 17 :=
  ⟨by decide,
    (C4_matches_non_overlapping "call 555-123-4567 now".toList).1
      (5, 17, "555-123-4567".toList) (by decide)⟩

/-! ### Vanity decoding (claim C7) -/

theorem char_eq_of_toNat {c d : Char} (h : c.toNat = d.toNat) : c = d := by
  have h1 := Char.ofNat_toNat c
  have h2 := Char.ofNat_toNat d
  rw [← h1, ← h2, h]

theorem toNat_ofNat_valid {n : Nat} (h : n < 0xD800) : (Char.ofNat n).toNat = n := by
  unfold Char.ofNat
  rw [dif_pos (Or.inl h)]
  rfl

/-- Every uppercase letter has a keypad digit. -/
theorem vanity_map_upper {c : Char} (h1 : 65 ≤ c.toNat) (h2 : c.toNat ≤ 90) :
    (VANITY_MAP c).isSome = true := by
  have hrange : c.toNat = 65 ∨ c.toNat = 66 ∨ c.toNat = 67 ∨ c.toNat = 68 ∨
      c.toNat = 69 ∨ c.toNat = 70 ∨ c.toNat = 71 ∨ c.toNat = 72 ∨ c.toNat = 73 ∨
      c.toNat = 74 ∨ c.toNat = 75 ∨ c.toNat = 76 ∨ c.toNat = 77 ∨ c.toNat = 78 ∨
      c.toNat = 79 ∨ c.toNat = 80 ∨ c.toNat = 81 ∨ c.toNat = 82 ∨ c.toNat = 83 ∨
      c.toNat = 84 ∨ c.toNat = 85 ∨ c.toNat = 86 ∨ c.toNat = 87 ∨ c.toNat = 88 ∨
      c.toNat = 89 ∨ c.toNat = 90 := by omega
  rcases hrange with h | h | h | h | h | h | h | h | h | h | h | h | h | h | h | h | h |
    h | h | h | h | h | h | h | h | h <;>
    rw [← Char.ofNat_toNat c, h] <;> decide

/-- The keypad digit of an ASCII letter after uppercasing is defined. -/
theorem vanity_map_letter {c : Char} (hc : isAsciiLetter c = true) :
    (VANITY_MAP (asciiUpper c)).isSome = true := by
  simp only [isAsciiLetter, Bool.or_eq_true, Bool.and_eq_true, decide_eq_true_eq] at hc
  unfold asciiUpper
  rcases hc with ⟨h1, h2⟩ | ⟨h1, h2⟩
  · rw [if_neg (by omega)]
    exact vanity_map_upper h1 h2
  · rw [if_pos ⟨h1, h2⟩]
    have hv : (Char.ofNat (c.toNat - 32)).toNat = c.toNat - 32 :=
      toNat_ofNat_valid (by omega)
    exact vanity_map_upper (by omega) (by omega)

/-- The decoded digits of a letter-led word are nonempty. -/
theorem vanityDigits_ne_nil {c : Char} {rest : List Char} (hc : isAsciiLetter c = true) :
    vanityDigits (c :: rest) ≠ [] := by
  unfold vanityDigits
  rw [List.filter_cons, if_pos hc, List.map_cons, List.filterMap_cons]
  cases hv : VANITY_MAP (asciiUpper c) with
  | some d => simp
  | none =>
    have := vanity_map_letter hc
    rw [hv] at this
    simp at this

theorem matchVanityWord_shape {t : List Char} {w : Nat}
    (h : matchVanityWord t = some w) :
    1 ≤ w ∧ ∃ c cs, t = c :: cs ∧ isAsciiLetter c = true := by
  match t with
  | [] => simp [matchVanityWord] at h
  | c :: rest =>
    simp only [matchVanityWord] at h
    by_cases hc : isAsciiLetter c = true
    · rw [if_pos hc] at h
      cases hk : matchVanityWord.bestWordK (rest.takeWhile fun d => isAsciiLetter d || d = '-')
          rest with
      | some k =>
        rw [hk] at h
        simp only [Option.some.injEq] at h
        exact ⟨by omega, c, rest, rfl, hc⟩
      | none => rw [hk] at h; simp at h
    · rw [if_neg hc] at h
      simp at h

theorem matchAfterXX_shape {t : List Char} {p w : Nat}
    (h : matchAfterXX t = some (p, w)) :
    matchVanityWord (t.drop p) = some w := by
  match t with
  | [] => simp [matchAfterXX] at h
  | c :: rest =>
    simp only [matchAfterXX] at h
    by_cases hc : isSpDash c = true
    · rw [if_pos hc] at h
      cases h1 : matchVanityWord rest with
      | some w2 =>
        rw [h1] at h
        simp only [Option.some.injEq, Prod.mk.injEq] at h
        obtain ⟨hp, hw⟩ := h
        subst hp
        rw [List.drop_succ_cons, List.drop_zero, ← hw]
        exact h1
      | none =>
        rw [h1] at h
        cases h2 : matchVanityWord (c :: rest) with
        | some w2 =>
          rw [h2] at h
          simp only [Option.some.injEq, Prod.mk.injEq] at h
          obtain ⟨hp, hw⟩ := h
          subst hp
          rw [List.drop_zero, ← hw]
          exact h2
        | none => rw [h2] at h; simp at h
    · rw [if_neg hc] at h
      cases h2 : matchVanityWord (c :: rest) with
      | some w2 =>
        rw [h2] at h
        simp only [Option.some.injEq, Prod.mk.injEq] at h
        obtain ⟨hp, hw⟩ := h
        subst hp
        rw [List.drop_zero, ← hw]
        exact h2
      | none => rw [h2] at h; simp at h

theorem matchVanityTail_shape {t : List Char} {p w : Nat}
    (h : matchVanityTail t = some (p, w)) :
    1 ≤ p ∧ matchVanityWord (t.drop (p - 1)) = some w := by
  rcases matchVanityTail_cases h with
    ⟨x, y, rest2, p2, ht, hxx, ha, hp⟩ | ⟨c, x, y, rest2, p2, ht, hsep, hxx, ha, hp⟩
  · have hword := matchAfterXX_shape ha
    refine ⟨by omega, ?_⟩
    subst ht
    rw [show p - 1 = p2 + 3 from by omega]
    simpa [List.drop_succ_cons] using hword
  · have hword := matchAfterXX_shape ha
    refine ⟨by omega, ?_⟩
    subst ht
    rw [show p - 1 = p2 + 4 from by omega]
    simpa [List.drop_succ_cons] using hword

/-- The word group of a successful vanity match starts with a letter. -/
theorem matchVanityAt_word {l : List Char} {p w : Nat}
    (h : matchVanityAt l = some (p, w)) :
    1 ≤ w ∧ ∃ c cs, l.drop p = c :: cs ∧ isAsciiLetter c = true := by
  match l with
  | [] => simp [matchVanityAt] at h
  | c0 :: t =>
    simp only [matchVanityAt] at h
    by_cases hc : c0 = '1'
    · rw [if_pos hc] at h
      obtain ⟨hp, hword⟩ := matchVanityTail_shape h
      obtain ⟨hw, c, cs, hcons, hletter⟩ := matchVanityWord_shape hword
      refine ⟨hw, c, cs, ?_, hletter⟩
      rw [show p = (p - 1) + 1 from by omega, List.drop_succ_cons, hcons]
    · rw [if_neg hc] at h
      simp at h

/-- C7: vanity decoding rewrites every `1-8XX-WORD` occurrence (XX among
00/33/44/55/66/77/88, WORD a letter followed by 3+ letters or hyphens) by
keeping the numeric part unchanged and replacing WORD with its letters'
telephone-keypad digits (A/B/C→2, …, W/X/Y/Z→9); in particular
`convertVanityToDigits "1-800-FLOWERS" = "1-800-3569377"`, the keypad
table maps A…Z to 22233344455566677778889999, and at any match position
the scan emits the unchanged prefix followed by the decoded digits. -/
theorem C7_vanity_decoding :
    convertVanityToDigits "1-800-FLOWERS".toList = "1-800-3569377".toList ∧
    vanityDigits "ABCDEFGHIJKLMNOPQRSTUVWXYZ".toList =
      "22233344455566677778889999".toList ∧
    ∀ (s : List Char) (fuel pos p w : Nat),
      pos < s.length →
      (pos = 0 ∨ ¬isWordChar (s.getD (pos - 1) ' ') = true) →
      matchVanityAt (s.drop pos) = some (p, w) →
      vanityScanAux s (fuel + 1) pos =
        (s.drop pos).take p ++ vanityDigits (((s.drop pos).drop p).take w) ++
          vanityScanAux s fuel (pos + p + w) := by
  refine ⟨by decide, by decide, ?_⟩
  intro s fuel pos p w hpos hprev hv
  obtain ⟨hw, c, cs, hcons, hletter⟩ := matchVanityAt_word hv
  have hword : ((s.drop pos).drop p).take w = c :: cs.take (w - 1) := by
    obtain ⟨w2, rfl⟩ : ∃ w2, w = w2 + 1 := ⟨w - 1, by omega⟩
    rw [hcons, List.take_succ_cons]
    simp
  have hne : vanityDigits (((s.drop pos).drop p).take w) ≠ [] := by
    rw [hword]
    exact vanityDigits_ne_nil hletter
  rw [vanityScanAux]
  rw [if_neg (by omega : ¬s.length ≤ pos)]
  rw [if_pos hprev]
  simp only [hv]
  rw [if_pos hne, List.append_assoc]

/-- Witness for C7: the scenario match at position 0 of
`"1-800-FLOWERS"` with prefix length 6 and word length 7. -/
theorem C7_vanity_decoding_witness :
    ((0 : Nat) < ("1-800-FLOWERS".toList).length ∧
      matchVanityAt ("1-800-FLOWERS".toList.drop 0) = some (6, 7)) ∧
    vanityScanAux "1-800-FLOWERS".toList (13 + 1) 0 =
      ("1-800-FLOWERS".toList.drop 0).take 6 ++
        vanityDigits ((("1-800-FLOWERS".toList.drop 0).drop 6).take 7) ++
        vanityScanAux "1-800-FLOWERS".toList 13 (0 + 6 + 7) :=
  ⟨⟨by decide, by decide⟩,
    C7_vanity_decoding.2.2 "1-800-FLOWERS".toList 13 0 6 7 (by decide)
      (Or.inl rfl) (by decide)⟩

end PdfEditor
